import Mathlib

/-!
Shallow embedding of the PhenomenalLayout dynamic-programming core
(src/core/dynamic_validation_engine.py and src/core/dynamic_programming.py)
and proofs settling the frozen claims about it.

Modelling conventions, used throughout:
* Python exceptions are modelled with `Except String`;
* wall-clock durations and the metrics bookkeeping are omitted: they never
  influence any control flow or any returned value that a claim mentions;
* Python `dict`s are modelled as insertion-ordered association lists with
  unique keys, Python `set`s of names as duplicate-free lists;
* the file system seen by validators that read bytes from `file_path` is
  modelled by a `file_bytes` field carried in the validation context.
-/

namespace PL

/-- Mirror of `ValidationResult` (dynamic_validation_engine.py). -/
inductive ValidationResult where
  | valid
  | invalid
  | warning
  | skipped
  | error
deriving DecidableEq, Repr

/-- Mirror of `ValidationSeverity` (dynamic_validation_engine.py). -/
inductive ValidationSeverity where
  | critical
  | high
  | medium
  | low
  | info
deriving DecidableEq, Repr

/-- Mirror of `ValidationOutcome`. The `details` dict, `duration_ms` and
`cached` fields are omitted: no claim mentions them and they never affect
control flow. Defaults follow the dataclass defaults. -/
structure ValidationOutcome where
  validator_name : String
  result : ValidationResult
  severity : ValidationSeverity := ValidationSeverity.medium
  message : String := ""
  dependencies_satisfied : Bool := true
deriving DecidableEq, Repr

/-- `ValidationOutcome.is_blocking`: INVALID with CRITICAL or HIGH severity. -/
def ValidationOutcome.is_blocking (o : ValidationOutcome) : Bool :=
  o.result == ValidationResult.invalid &&
    (o.severity == ValidationSeverity.critical || o.severity == ValidationSeverity.high)

/-- Mirror of `ValidationContext`.  `file_bytes` models the content of the
file at `file_path` (read by validators that open the file); `file_size` is
the stat-reported size carried in the context, exactly as in the source
where the two are supplied independently. The derived `cache_key`
fingerprint is omitted (no claim mentions it). -/
structure ValidationContext where
  file_path : String
  file_size : Nat := 0
  file_ext : String := ""
  file_bytes : List Nat := []
deriving DecidableEq, Repr

/-- Mirror of `ValidatorProtocol`: a named validator with dependencies,
priority, an applicability predicate and a validation function. A Python
`validate` that raises is modelled as returning `Except.error`. -/
structure ValidatorProtocol where
  name : String
  dependencies : List String
  priority : Int := 50
  can_validate : ValidationContext → Bool
  validate : ValidationContext → Except String ValidationOutcome

/-- `FileExtensionValidator.validate` (allowed_extensions defaults to {".pdf"}). -/
def FileExtensionValidator.validate (allowed_extensions : List String)
    (context : ValidationContext) : ValidationOutcome :=
  if context.file_ext = "" then
    { validator_name := "extension", result := ValidationResult.invalid,
      severity := ValidationSeverity.high, message := "No file extension found" }
  else if context.file_ext ∉ allowed_extensions then
    { validator_name := "extension", result := ValidationResult.invalid,
      severity := ValidationSeverity.high,
      message := "Unsupported file extension: " ++ context.file_ext }
  else
    { validator_name := "extension", result := ValidationResult.valid,
      severity := ValidationSeverity.info,
      message := "Valid file extension: " ++ context.file_ext }

/-- `FileExtensionValidator` as a `ValidatorProtocol` (name "extension",
no dependencies, default priority 50, `can_validate` = `bool(file_path)`). -/
def FileExtensionValidator (allowed_extensions : List String) : ValidatorProtocol where
  name := "extension"
  dependencies := []
  can_validate := fun context => context.file_path ≠ ""
  validate := fun context => Except.ok (FileExtensionValidator.validate allowed_extensions context)

/-- `FileSizeValidator.validate` with bounds `min_size_bytes` and
`max_size_bytes` (defaults 1 and 50 * 1024 * 1024). -/
def FileSizeValidator.validate (max_size_bytes min_size_bytes : Nat)
    (context : ValidationContext) : ValidationOutcome :=
  if context.file_size < min_size_bytes then
    { validator_name := "file_size", result := ValidationResult.invalid,
      severity := ValidationSeverity.high,
      message := "File too small: " ++ toString context.file_size ++ " bytes" }
  else if context.file_size > max_size_bytes then
    { validator_name := "file_size", result := ValidationResult.invalid,
      severity := ValidationSeverity.high,
      message := "File too large: " ++ toString context.file_size ++ " bytes" }
  else
    { validator_name := "file_size", result := ValidationResult.valid,
      severity := ValidationSeverity.info,
      message := "Valid file size: " ++ toString context.file_size ++ " bytes" }

/-- `FileSizeValidator` as a `ValidatorProtocol` (name "file_size",
depends on "extension", `can_validate` = `file_size > 0`). -/
def FileSizeValidator (max_size_bytes min_size_bytes : Nat) : ValidatorProtocol where
  name := "file_size"
  dependencies := ["extension"]
  can_validate := fun context => context.file_size > 0
  validate := fun context =>
    Except.ok (FileSizeValidator.validate max_size_bytes min_size_bytes context)

/-- The `%PDF-` magic bytes checked by `PDFHeaderValidator.validate`. -/
def pdfMagic : List Nat := [37, 80, 68, 70, 45]

/-- `bytes.decode("ascii", errors="ignore")`: keep bytes below 128. -/
def decodeAscii (bs : List Nat) : String :=
  String.mk ((bs.filter (fun b => b < 128)).map Char.ofNat)

/-- `PDFHeaderValidator.validate`: reads the first 8 bytes of the file and
checks the `%PDF-` magic; on success reports the version from bytes 5..8.
The model's read always succeeds (the context carries the bytes), so the
`except` branch that converts an I/O exception into an ERROR outcome is
unreachable here. -/
def PDFHeaderValidator.validate (context : ValidationContext) : ValidationOutcome :=
  let header := context.file_bytes.take 8
  if pdfMagic.isPrefixOf header then
    { validator_name := "pdf_header", result := ValidationResult.valid,
      severity := ValidationSeverity.info,
      message := "Valid PDF header, version: " ++ decodeAscii ((header.drop 5).take 3) }
  else
    { validator_name := "pdf_header", result := ValidationResult.invalid,
      severity := ValidationSeverity.high, message := "Invalid PDF header" }

/-- `PDFHeaderValidator` as a `ValidatorProtocol` (name "pdf_header",
depends on "extension" and "file_size", `can_validate` = extension is ".pdf"). -/
def PDFHeaderValidator : ValidatorProtocol where
  name := "pdf_header"
  dependencies := ["extension", "file_size"]
  can_validate := fun context => context.file_ext = ".pdf"
  validate := fun context => Except.ok (PDFHeaderValidator.validate context)

/-- Mirror of `ValidationGraph`. The Python object keeps a name-keyed dict
of validators plus derived `dependencies`/`dependents` maps built by
`add_validator`; we keep the insertion-ordered validator list and derive
both maps from it. Graphs built by distinct `add_validator` calls have
unique names (`wf` below). -/
structure ValidationGraph where
  validators : List ValidatorProtocol

/-- `add_validator`. -/
def ValidationGraph.add_validator (g : ValidationGraph) (v : ValidatorProtocol) :
    ValidationGraph :=
  ⟨g.validators ++ [v]⟩

/-- Name lookup in the validator dict. -/
def ValidationGraph.find (g : ValidationGraph) (n : String) : Option ValidatorProtocol :=
  g.validators.find? (fun v => v.name == n)

/-- The `dependencies` map (`defaultdict(set)`: unknown names map to ∅). -/
def ValidationGraph.dependenciesOf (g : ValidationGraph) (n : String) : List String :=
  match g.find n with
  | some v => v.dependencies
  | none => []

/-- The `dependents` map derived from the stored edges: every validator
that lists `n` among its dependencies. -/
def ValidationGraph.dependentsOf (g : ValidationGraph) (n : String) : List String :=
  (g.validators.filter (fun v => v.dependencies.contains n)).map (fun v => v.name)

/-- `can_execute`: all dependencies of `n` are in `completed`. -/
def ValidationGraph.can_execute (g : ValidationGraph) (n : String)
    (completed : List String) : Bool :=
  (g.dependenciesOf n).all (fun d => completed.contains d)

/-- Ranking used by `available.sort(reverse=True)` on `(priority, name)`
tuples: `x` comes no later than `y` in the descending order. -/
def availGe (x y : Int × String) : Bool :=
  decide (y.1 < x.1) || (decide (x.1 = y.1) && decide (y.2 ≤ x.2))

/-- Insert into a descending-sorted `available` list (the Python code
appends and re-sorts; with distinct names the result is this insertion). -/
def insertAvail (x : Int × String) : List (Int × String) → List (Int × String)
  | [] => [x]
  | y :: ys => if availGe x y then x :: y :: ys else y :: insertAvail x ys

/-- Descending sort of the initial `available` list. -/
def sortAvail (l : List (Int × String)) : List (Int × String) :=
  l.foldl (fun acc x => insertAvail x acc) []

/-- Processing of one dependent `d` of the popped validator inside the
`while` loop of `get_execution_order`: decrement its in-degree and, when
it reaches zero, add `(priority, d)` to the available list (kept in the
descending order the Python re-sort maintains). -/
def kahnFoldStep (g : ValidationGraph)
    (acc : (String → Int) × List (Int × String)) (d : String) :
    (String → Int) × List (Int × String) :=
  let degNew : String → Int := fun n => if n = d then acc.1 d - 1 else acc.1 n
  if acc.1 d - 1 = 0 then
    match g.find d with
    | some v => (degNew, insertAvail (v.priority, d) acc.2)
    | none => (degNew, acc.2)
  else (degNew, acc.2)

/-- The body of Kahn's `while available:` loop in `get_execution_order`.
Fuel bounds the iteration count; `validators.length` iterations always
suffice (each iteration appends one validator name to `order`). -/
def kahnLoop (g : ValidationGraph) :
    Nat → List (Int × String) → (String → Int) → List String → List String
  | 0, _, _, order => order
  | _ + 1, [], _, order => order
  | fuel + 1, (_, current) :: rest, deg, order =>
    let step := (g.dependentsOf current).foldl (kahnFoldStep g) (deg, rest)
    kahnLoop g fuel step.2 step.1 (order ++ [current])

/-- The validator names of a graph, in registration order. -/
def ValidationGraph.names (g : ValidationGraph) : List String :=
  g.validators.map (fun v => v.name)

/-- The initial in-degree map of `get_execution_order`:
`in_degree[name] = len(self.dependencies[name])`. -/
def kahnDegInit (g : ValidationGraph) : String → Int :=
  fun n => ((g.dependenciesOf n).length : Int)

/-- The initial available list of `get_execution_order`: the validators of
in-degree zero, sorted descending by `(priority, name)`. -/
def kahnAvailInit (g : ValidationGraph) : List (Int × String) :=
  sortAvail
    ((g.validators.filter (fun v => v.dependencies.isEmpty)).map
      (fun v => (v.priority, v.name)))

/-- The order list the Kahn loop of `get_execution_order` produces. -/
def kahnOrder (g : ValidationGraph) : List String :=
  kahnLoop g g.names.length (kahnAvailInit g) (kahnDegInit g) []

/-- `get_execution_order`: topological sort with priority ordering.  The
Python method raises `ValueError` listing the unresolved names when the
produced order misses some validators; we return that set as `Except.error`. -/
def ValidationGraph.get_execution_order (g : ValidationGraph) :
    Except (List String) (List String) :=
  if (kahnOrder g).length = g.names.length then Except.ok (kahnOrder g)
  else Except.error (g.names.filter (fun n => ¬ (kahnOrder g).contains n))

/-- Outcome recorded when `can_validate` is false. -/
def skippedOutcome (n : String) : ValidationOutcome :=
  { validator_name := n, result := ValidationResult.skipped,
    message := "Validator not applicable to this context" }

/-- Outcome recorded when dependencies are not satisfied. -/
def depsOutcome (n : String) : ValidationOutcome :=
  { validator_name := n, result := ValidationResult.error,
    severity := ValidationSeverity.high, message := "Dependencies not satisfied",
    dependencies_satisfied := false }

/-- Outcome recorded when `validate` raises exception `e`. -/
def errOutcome (n e : String) : ValidationOutcome :=
  { validator_name := n, result := ValidationResult.error,
    severity := ValidationSeverity.high, message := "Validator error: " ++ e }

/-- The `for validator_name in execution_order:` loop of
`DynamicValidationEngine._execute_validation_pipeline`, threading the
result map (insertion-ordered) and the `completed` set. The `none` lookup
branch is unreachable: execution orders only contain registered names. -/
def pipelineLoop (g : ValidationGraph) (fail_fast : Bool) (context : ValidationContext) :
    List String → List (String × ValidationOutcome) → List String →
      List (String × ValidationOutcome)
  | [], results, _ => results
  | name :: rest, results, completed =>
    match g.find name with
    | none => results
    | some v =>
      if v.can_validate context = false then
        pipelineLoop g fail_fast context rest
          (results ++ [(name, skippedOutcome name)]) (completed ++ [name])
      else if g.can_execute name completed = false then
        let results2 := results ++ [(name, depsOutcome name)]
        if fail_fast then results2
        else pipelineLoop g fail_fast context rest results2 completed
      else
        match v.validate context with
        | Except.ok outcome =>
          let results2 := results ++ [(name, outcome)]
          if fail_fast && outcome.is_blocking then results2
          else pipelineLoop g fail_fast context rest results2 (completed ++ [name])
        | Except.error e =>
          let results2 := results ++ [(name, errOutcome name e)]
          if fail_fast then results2
          else pipelineLoop g fail_fast context rest results2 completed

/-- `_execute_validation_pipeline`: run the pipeline over the cached
execution order; a cycle error from `get_execution_order` propagates. -/
def executeValidationPipeline (g : ValidationGraph) (fail_fast : Bool)
    (context : ValidationContext) :
    Except (List String) (List (String × ValidationOutcome)) :=
  match g.get_execution_order with
  | Except.error r => Except.error r
  | Except.ok order => Except.ok (pipelineLoop g fail_fast context order [] [])

/-- Well-formed graph: built by `add_validator` calls with distinct names,
and dependency lists without duplicates (Python stores them as sets). -/
def ValidationGraph.wf (g : ValidationGraph) : Prop :=
  g.names.Nodup ∧ ∀ v ∈ g.validators, v.dependencies.Nodup

/-- All dependency edges point at registered validators. -/
def ValidationGraph.closed (g : ValidationGraph) : Prop :=
  ∀ v ∈ g.validators, ∀ d ∈ v.dependencies, d ∈ g.names

/-- `a` depends on `b` through a stored edge. -/
def dependsOn (g : ValidationGraph) (a b : String) : Prop :=
  b ∈ g.dependenciesOf a

/-- A dependency cycle: a nonempty list of validators, each depending on
the next, whose last element depends on the first. -/
def isCycle (g : ValidationGraph) (c : List String) : Prop :=
  c ≠ [] ∧ c.Chain' (dependsOn g) ∧
    ∃ a b, c.head? = some a ∧ c.getLast? = some b ∧ dependsOn g b a

/-- Specification predicate: position `i` of `l` only has dependencies
appearing strictly earlier in `l`. -/
def TopoOK (g : ValidationGraph) (l : List String) : Prop :=
  ∀ i, ∀ h : i < l.length, ∀ d ∈ g.dependenciesOf (l.get ⟨i, h⟩), d ∈ l.take i

/-- Loop invariant: the in-degree map counts, for every registered
validator, its dependencies not yet placed in `order`. -/
def DegOK (g : ValidationGraph) (deg : String → Int) (order : List String) : Prop :=
  ∀ n ∈ g.names,
    deg n = (((g.dependenciesOf n).filter (fun d => decide (d ∉ order))).length : Int)

/-- Loop invariant for the available list: names are distinct, registered,
not yet ordered, and of in-degree zero. -/
def AvailOK (g : ValidationGraph) (avail : List (Int × String)) (deg : String → Int)
    (order : List String) : Prop :=
  (avail.map (fun p => p.2)).Nodup ∧
    ∀ p ∈ avail, p.2 ∈ g.names ∧ p.2 ∉ order ∧ deg p.2 = 0

/-- Loop invariant for completeness: every registered validator of
in-degree zero that is not ordered yet sits in the available list. -/
def AvailComplete (g : ValidationGraph) (avail : List (Int × String))
    (deg : String → Int) (order : List String) : Prop :=
  ∀ n ∈ g.names, n ∉ order → deg n = 0 → n ∈ avail.map (fun p => p.2)

/-- Loop invariant for the order built so far. -/
def OrderOK (g : ValidationGraph) (order : List String) : Prop :=
  order.Nodup ∧ (∀ a ∈ order, a ∈ g.names) ∧ TopoOK g order

/-- The elements the fold over the dependents of the popped validator adds
to the available list. -/
def kahnNewElems (g : ValidationGraph) (deg : String → Int) (l : List String) :
    List (Int × String) :=
  l.filterMap (fun d =>
    if deg d = 1 then (g.find d).map (fun v => (v.priority, d)) else none)

/-- § Concrete scenario of claim C1: the three validators of the spec's
scenario (extension → file_size → pdf_header) with the source defaults. -/
def c1Graph : ValidationGraph :=
  ⟨[FileExtensionValidator [".pdf"], FileSizeValidator 52428800 1, PDFHeaderValidator]⟩

/-- A 0-byte file whose path ends in `.pdf`. -/
def c1Context : ValidationContext :=
  { file_path := "doc.pdf", file_size := 0, file_ext := ".pdf", file_bytes := [] }

/-- The outcome `extension` produces on `c1Context`. -/
def c1ExtOutcome : ValidationOutcome :=
  { validator_name := "extension", result := ValidationResult.valid,
    severity := ValidationSeverity.info, message := "Valid file extension: .pdf" }

/-- The outcome `pdf_header` produces on `c1Context`. -/
def c1HdrOutcome : ValidationOutcome :=
  { validator_name := "pdf_header", result := ValidationResult.invalid,
    severity := ValidationSeverity.high, message := "Invalid PDF header" }

/-- § Concrete graph for the C2 counterexample: a single validator `A`
depending on a name `B` that is never registered. -/
def c2DanglingGraph : ValidationGraph :=
  ⟨[{ name := "A", dependencies := ["B"],
      can_validate := fun _ => true,
      validate := fun _ => Except.error "unused" }]⟩

/-- § Concrete graph for the C10 counterexample: `A` raises during
validation, `B` depends on `A` but is not applicable to the context
(`can_validate` false). -/
def c10Graph : ValidationGraph :=
  ⟨[{ name := "A", dependencies := [],
      can_validate := fun _ => true,
      validate := fun _ => Except.error "boom" },
    { name := "B", dependencies := ["A"],
      can_validate := fun _ => false,
      validate := fun _ => Except.ok (skippedOutcome "unused") }]⟩

/-- A trivial context for the C10 counterexample. -/
def c10Context : ValidationContext := { file_path := "f" }

/-- The outcome the pipeline records when `validate` is invoked: the
returned outcome, or the caught-exception ERROR outcome. -/
def outcomeOfValidate (n : String) (r : Except String ValidationOutcome) :
    ValidationOutcome :=
  match r with
  | Except.ok o => o
  | Except.error e => errOutcome n e

/-- § Concrete validators witnessing claims C3 and C10: `extension`
succeeds, `file_size` raises, `pdf_header` depends only on `extension`
and succeeds; the priorities force the execution order
[extension, file_size, pdf_header]. -/
def c3ExtValidator : ValidatorProtocol where
  name := "extension"
  dependencies := []
  priority := 50
  can_validate := fun _ => true
  validate := fun _ =>
    Except.ok { validator_name := "extension", result := ValidationResult.valid,
                severity := ValidationSeverity.info }

def c3SizeValidator : ValidatorProtocol where
  name := "file_size"
  dependencies := ["extension"]
  priority := 60
  can_validate := fun _ => true
  validate := fun _ => Except.error "boom"

def c3HeaderValidator : ValidatorProtocol where
  name := "pdf_header"
  dependencies := ["extension"]
  priority := 40
  can_validate := fun _ => true
  validate := fun _ =>
    Except.ok { validator_name := "pdf_header", result := ValidationResult.valid,
                severity := ValidationSeverity.info }

def c3Graph : ValidationGraph := ⟨[c3ExtValidator, c3SizeValidator, c3HeaderValidator]⟩

/-- § Witness graph for the amended claim C10: `A` succeeds, `B` raises,
`C` is applicable and depends on the raising `B`. -/
def c10AmendedGraph : ValidationGraph :=
  ⟨[{ name := "A", dependencies := [],
      can_validate := fun _ => true,
      validate := fun _ =>
        Except.ok { validator_name := "A", result := ValidationResult.valid } },
    { name := "B", dependencies := ["A"],
      can_validate := fun _ => true,
      validate := fun _ => Except.error "boom" },
    { name := "C", dependencies := ["B"],
      can_validate := fun _ => true,
      validate := fun _ =>
        Except.ok { validator_name := "C", result := ValidationResult.valid } }]⟩

/-! ### SmartCache, DynamicRegistry and memoize (dynamic_programming.py) -/

/-- Mirror of `CachePolicy`. -/
inductive CachePolicy where
  | lru
  | ttl
  | lfu
  | fifo
deriving DecidableEq, Repr

/-- Mirror of `CacheEntry`: value, creation timestamp, access count and
last-access timestamp (`timestamp = time.time()` at construction,
`last_accessed = timestamp`). Time is threaded explicitly: every cache
operation takes the current clock value. -/
structure CacheEntry (V : Type) where
  value : V
  timestamp : Int
  access_count : Nat
  last_accessed : Int
deriving DecidableEq, Repr

/-- `CacheEntry.access`: return the value, bump the access count and
refresh `last_accessed`. -/
def CacheEntry.access {V : Type} (e : CacheEntry V) (now : Int) :
    V × CacheEntry V :=
  (e.value, { e with access_count := e.access_count + 1, last_accessed := now })

/-- Replace-or-append update of an insertion-ordered Python dict. -/
def dictSet {K V : Type} [BEq K] : List (K × V) → K → V → List (K × V)
  | [], k, v => [(k, v)]
  | (k0, v0) :: rest, k, v =>
    if k0 == k then (k, v) :: rest else (k0, v0) :: dictSet rest k v

/-- `del d[k]` on a Python dict with unique keys. -/
def dictDel {K V : Type} [BEq K] (m : List (K × V)) (k : K) : List (K × V) :=
  m.filter (fun p => !(p.1 == k))

/-- `set.add`: duplicate-free insertion. -/
def setAdd {K : Type} [BEq K] (s : List K) (k : K) : List K :=
  if s.contains k then s else s ++ [k]

/-- Ranking of the LFU heap tuples `(access_count, insertion_counter, key)`
as Python compares them; insertion counters are unique in reachable
states, so the key component is never compared. -/
def heapLe {K : Type} (a b : Nat × Nat × K) : Bool :=
  a.1 < b.1 || (a.1 == b.1 && a.2.1 ≤ b.2.1)

/-- `heapq.heappush` modelled on the ascending-sorted-list representation
of the heap: on totally ordered distinct tuples the pop sequence of a
binary min-heap equals ascending order of the multiset, so the heap is
kept as an ascending list with ordered insertion and head pop. -/
def heappush {K : Type} (x : Nat × Nat × K) :
    List (Nat × Nat × K) → List (Nat × Nat × K)
  | [] => [x]
  | y :: ys => if heapLe x y then x :: y :: ys else y :: heappush x ys

/-- Mirror of `SmartCache`'s state: the entry dict plus the policy-specific
auxiliary structures (deque for LRU, min-heap + stale set + counter for
LFU, OrderedDict for FIFO). -/
structure SmartCache (K V : Type) where
  max_size : Nat := 256
  policy : CachePolicy := CachePolicy.lru
  ttl_seconds : Option Int := none
  cache : List (K × CacheEntry V) := []
  access_order : List K := []
  lfu_heap : List (Nat × Nat × K) := []
  lfu_insertion_counter : Nat := 0
  lfu_stale_keys : List K := []
  fifo_order : List K := []

/-- The truthiness-guarded TTL test of `SmartCache.get`:
`if self.ttl_seconds and (time.time() - entry.timestamp) > self.ttl_seconds`
(a `ttl_seconds` of 0 is falsy and disables the check). -/
def ttlExpired (ttl : Option Int) (timestamp now : Int) : Bool :=
  match ttl with
  | none => false
  | some t => t != 0 && now - timestamp > t

/-- `SmartCache._remove_key`: drop the key from the dict, the LRU deque
and the FIFO dict, and flag it stale for the LFU heap. -/
def SmartCache.removeKey {K V : Type} [BEq K] (s : SmartCache K V) (k : K) :
    SmartCache K V :=
  if (s.cache.lookup k).isNone then s
  else
    { s with
      cache := dictDel s.cache k,
      access_order :=
        if s.access_order.contains k then s.access_order.erase k
        else s.access_order,
      fifo_order :=
        if s.fifo_order.contains k then s.fifo_order.erase k else s.fifo_order,
      lfu_stale_keys := setAdd s.lfu_stale_keys k }

/-- `SmartCache.get`: policy-aware lookup with TTL expiry removal and
per-policy bookkeeping, returning the value (or `none` on miss/expiry)
together with the updated cache state. -/
def SmartCache.get {K V : Type} [BEq K] (s : SmartCache K V) (k : K)
    (now : Int) : Option V × SmartCache K V :=
  match s.cache.lookup k with
  | none => (none, s)
  | some entry =>
    if ttlExpired s.ttl_seconds entry.timestamp now then
      (none, s.removeKey k)
    else
      match s.policy with
      | CachePolicy.lru =>
        let order2 :=
          (if s.access_order.contains k then s.access_order.erase k
           else s.access_order) ++ [k]
        let r := entry.access now
        (some r.1, { s with cache := dictSet s.cache k r.2, access_order := order2 })
      | CachePolicy.lfu =>
        let r := entry.access now
        ( some r.1,
          { s with
            cache := dictSet s.cache k r.2,
            lfu_stale_keys := setAdd s.lfu_stale_keys k,
            lfu_heap :=
              heappush (r.2.access_count, s.lfu_insertion_counter, k) s.lfu_heap,
            lfu_insertion_counter := s.lfu_insertion_counter + 1 } )
      | _ =>
        let r := entry.access now
        (some r.1, { s with cache := dictSet s.cache k r.2 })

/-- The `while self._lfu_heap:` loop of `SmartCache._evict_one` for the
LFU policy: pop tuples in heap order, discarding stale-flagged keys and
tuples whose recorded count disagrees with the entry's current count, and
delete the first key that passes both checks. -/
def lfuEvictLoop {K V : Type} [BEq K] (cache : List (K × CacheEntry V))
    (stale : List K) :
    List (Nat × Nat × K) → List (K × CacheEntry V) × List K × List (Nat × Nat × K)
  | [] => (cache, stale, [])
  | (access_count, _, k) :: rest =>
    if stale.contains k then lfuEvictLoop cache (stale.erase k) rest
    else
      match cache.lookup k with
      | some e =>
        if e.access_count = access_count then (dictDel cache k, stale.erase k, rest)
        else lfuEvictLoop cache stale rest
      | none => lfuEvictLoop cache stale rest

/-- `SmartCache._evict_one`. -/
def SmartCache.evictOne {K V : Type} [BEq K] (s : SmartCache K V) :
    SmartCache K V :=
  if s.cache.isEmpty then s
  else
    match s.policy with
    | CachePolicy.lru =>
      match s.access_order with
      | [] => s
      | oldest :: restOrder =>
        { s with access_order := restOrder, cache := dictDel s.cache oldest }
    | CachePolicy.lfu =>
      let r := lfuEvictLoop s.cache s.lfu_stale_keys s.lfu_heap
      { s with cache := r.1, lfu_stale_keys := r.2.1, lfu_heap := r.2.2 }
    | CachePolicy.fifo =>
      match s.fifo_order with
      | [] => s
      | oldest :: restOrder =>
        { s with
          fifo_order := restOrder,
          cache :=
            if (s.cache.lookup oldest).isSome then dictDel s.cache oldest
            else s.cache }
    | CachePolicy.ttl => s

/-- `SmartCache.put`: evict when at capacity and the key is new, store a
fresh entry, then update the policy's auxiliary structure. -/
def SmartCache.put {K V : Type} [BEq K] (s : SmartCache K V) (k : K) (v : V)
    (now : Int) : SmartCache K V :=
  let s1 :=
    if s.cache.length ≥ s.max_size && (s.cache.lookup k).isNone then s.evictOne
    else s
  let s2 := { s1 with cache := dictSet s1.cache k ⟨v, now, 0, now⟩ }
  match s.policy with
  | CachePolicy.lru =>
    { s2 with
      access_order :=
        (if s2.access_order.contains k then s2.access_order.erase k
         else s2.access_order) ++ [k] }
  | CachePolicy.lfu =>
    { s2 with
      lfu_heap := heappush (0, s2.lfu_insertion_counter, k) s2.lfu_heap,
      lfu_insertion_counter := s2.lfu_insertion_counter + 1 }
  | CachePolicy.fifo =>
    { s2 with
      fifo_order :=
        (if s2.fifo_order.contains k then s2.fifo_order.erase k
         else s2.fifo_order) ++ [k] }
  | CachePolicy.ttl => s2

/-- `SmartCache.clear`. -/
def SmartCache.clear {K V : Type} (s : SmartCache K V) : SmartCache K V :=
  { s with
    cache := [], access_order := [], lfu_heap := [], lfu_stale_keys := [],
    fifo_order := [], lfu_insertion_counter := 0 }

/-- `SmartCache.size`. -/
def SmartCache.size {K V : Type} (s : SmartCache K V) : Nat := s.cache.length

/-- A fresh `SmartCache` as `__init__` builds it. -/
def SmartCache.init (K V : Type) (max_size : Nat) (policy : CachePolicy)
    (ttl_seconds : Option Int) : SmartCache K V :=
  { max_size := max_size, policy := policy, ttl_seconds := ttl_seconds }

/-- One externally invocable cache operation, with its clock value. -/
inductive CacheOp (K V : Type) where
  | get (k : K) (now : Int)
  | put (k : K) (v : V) (now : Int)
  | clear

/-- Apply one operation (the value returned by `get` is discarded). -/
def SmartCache.applyOp {K V : Type} [BEq K] (s : SmartCache K V) :
    CacheOp K V → SmartCache K V
  | CacheOp.get k now => (s.get k now).2
  | CacheOp.put k v now => s.put k v now
  | CacheOp.clear => s.clear

/-- Apply a sequence of operations left to right. -/
def SmartCache.run {K V : Type} [BEq K] (s : SmartCache K V)
    (ops : List (CacheOp K V)) : SmartCache K V :=
  ops.foldl SmartCache.applyOp s

/-- The size of the policy's auxiliary ordering structure (LRU deque,
LFU heap, FIFO ordered map; the pure-TTL policy keeps none). -/
def auxSize {K V : Type} (s : SmartCache K V) : Nat :=
  match s.policy with
  | CachePolicy.lru => s.access_order.length
  | CachePolicy.lfu => s.lfu_heap.length
  | CachePolicy.fifo => s.fifo_order.length
  | CachePolicy.ttl => 0

/-- Consistency of the entry dict with the LRU deque (policy LRU):
distinct keys, and the deque holds exactly the live keys. -/
def lruSync {K V : Type} (s : SmartCache K V) : Prop :=
  (s.cache.map Prod.fst).Nodup ∧ s.access_order.Nodup ∧
    ∀ x, x ∈ s.access_order ↔ x ∈ s.cache.map Prod.fst

/-- Consistency of the entry dict with the FIFO ordered map (policy FIFO). -/
def fifoSync {K V : Type} (s : SmartCache K V) : Prop :=
  (s.cache.map Prod.fst).Nodup ∧ s.fifo_order.Nodup ∧
    ∀ x, x ∈ s.fifo_order ↔ x ∈ s.cache.map Prod.fst

/-- § Concrete scenarios for claims C5 and C6. `c5State4`: LFU cache of
capacity 2 after put j, put k, get k, get j (both counts 1, j inserted
first); `c5State5`: after the capacity-triggered eviction of the next
put. -/
def c5State4 : SmartCache String Nat :=
  (SmartCache.init String Nat 2 CachePolicy.lfu none).run
    [CacheOp.put "j" 1 0, CacheOp.put "k" 2 0, CacheOp.get "k" 0,
     CacheOp.get "j" 0]

def c5State5 : SmartCache String Nat := c5State4.put "m" 3 0

/-- LFU cache after one put and one get: two heap tuples, one entry. -/
def c6LfuState : SmartCache String Nat :=
  (SmartCache.init String Nat 4 CachePolicy.lfu none).run
    [CacheOp.put "k" 1 0, CacheOp.get "k" 0]

/-- The LFU state reached by put k; get k on a capacity-2 cache: the single
live key is stale-flagged, its count-0 put tuple is first in heap order (it
consumes the flag during a scan) and its count-matching get tuple is second,
used to instantiate the amended C5 statement. -/
def c5WitnessState : SmartCache String Nat :=
  (SmartCache.init String Nat 2 CachePolicy.lfu none).run
    [CacheOp.put "k" 1 0, CacheOp.get "k" 0]

/-- Modelled from the amended specification of the LFU eviction scan: tuple
`i` of the heap survives iff its key is live with an access count matching
the tuple's recorded count, and it is not its key's flag-consuming tuple
(the key's first tuple in heap order while the key is stale-flagged). The
eviction scan skips flag-consuming, dead-key and count-mismatched tuples
and deletes the key of the first surviving tuple. -/
def lfuSurvives {K V : Type} [BEq K] (cache : List (K × CacheEntry V))
    (stale : List K) (h : List (Nat × Nat × K)) (i : Nat) : Prop :=
  ∃ t, h.get? i = some t ∧
    (∃ e, cache.lookup t.2.2 = some e ∧ e.access_count = t.1) ∧
    ¬ (t.2.2 ∈ stale ∧ ∀ j, j < i → ∀ u, h.get? j = some u → u.2.2 ≠ t.2.2)

/-- Mirror of `DynamicRegistry`: named factories plus a `SmartCache` keyed by
`_create_cache_key(key, args, kwargs)`. The normalized argument tuple is
abstracted as a single hashable value of type `A`, so a cache key is the pair
`(key, a)`; a factory may raise (`Except.error`) and may return Python `None`
(`Option.none`); the per-key metrics and the lock are omitted (they do not
affect results or cache contents). -/
structure DynamicRegistry (A T : Type) where
  registry : List (String × (A → Except String (Option T))) := []
  cache : SmartCache (String × A) (Option T)

/-- `DynamicRegistry.register` (the metrics map is omitted). -/
def DynamicRegistry.register {A T : Type} (r : DynamicRegistry A T)
    (key : String) (factory : A → Except String (Option T)) :
    DynamicRegistry A T :=
  { r with registry := dictSet r.registry key factory }

/-- `DynamicRegistry.get`: try the cache first (`if cached_result is not
None`, so a stored `None` falls through like a miss), return `None` for an
unknown name, otherwise call the factory, caching its result on success and
propagating its exception, uncached, on failure. The returned state keeps the
side effects of the cache probe. -/
def DynamicRegistry.get {A T : Type} [BEq A] (r : DynamicRegistry A T)
    (key : String) (a : A) (now : Int) :
    Except String (Option T) × DynamicRegistry A T :=
  match (r.cache.get (key, a) now).1 with
  | some (some t) => (Except.ok (some t), { r with cache := (r.cache.get (key, a) now).2 })
  | _ =>
    match r.registry.lookup key with
    | none => (Except.ok none, { r with cache := (r.cache.get (key, a) now).2 })
    | some factory =>
      match factory a with
      | Except.ok result =>
        ( Except.ok result,
          { r with cache := ((r.cache.get (key, a) now).2).put (key, a) result now } )
      | Except.error e =>
        (Except.error e, { r with cache := (r.cache.get (key, a) now).2 })

/-- One call of the wrapper built by `memoize`: the memo cache is a
`SmartCache` keyed by the normalized argument tuple (abstracted as `A`), the
wrapped pure function returns a Python value (`Option T`, `none` for `None`);
`if cached_result is not None` serves a hit, otherwise the function runs and
its result is put (even when it is `None`). -/
def memoizeCall {A T : Type} [BEq A] (f : A → Option T)
    (s : SmartCache A (Option T)) (a : A) (now : Int) :
    Option T × SmartCache A (Option T) :=
  match (s.get a now).1 with
  | some (some t) => (some t, (s.get a now).2)
  | _ => (f a, ((s.get a now).2).put a (f a) now)

/-- One externally invocable operation on a memoized function: a wrapper call
or `clear_cache()`. -/
inductive MemoOp (A : Type) where
  | call (a : A) (now : Int)
  | clear

/-- Apply one memo operation (the value returned by a call is discarded). -/
def memoApply {A T : Type} [BEq A] (f : A → Option T)
    (s : SmartCache A (Option T)) : MemoOp A → SmartCache A (Option T)
  | MemoOp.call a now => (memoizeCall f s a now).2
  | MemoOp.clear => s.clear

/-- A history of wrapper calls and cache clears, applied left to right. -/
def memoRun {A T : Type} [BEq A] (f : A → Option T)
    (s : SmartCache A (Option T)) (ops : List (MemoOp A)) :
    SmartCache A (Option T) :=
  ops.foldl (memoApply f) s

/-- The memo-cache invariant: every stored entry holds the wrapped function's
value at its key. -/
def memoGood {A T : Type} (f : A → Option T)
    (s : SmartCache A (Option T)) : Prop :=
  ∀ p ∈ s.cache, p.2.value = f p.1

/-- § Concrete registries for claims C4 and C9. A factory that always raises,
and a registry exposing it under the name f with an empty cache. -/
def c4BoomFactory : Nat → Except String (Option Nat) :=
  fun _ => Except.error "boom"

def c4Registry : DynamicRegistry Nat Nat where
  registry := [("f", c4BoomFactory)]
  cache := SmartCache.init (String × Nat) (Option Nat) 8 CachePolicy.lru none

/-- A factory whose outcome distinguishes a fresh invocation from a cache
hit, and a registry whose cache already stores a None result for it. -/
def c9RedoFactory : Nat → Except String (Option Nat) :=
  fun _ => Except.error "redo"

def c9Registry : DynamicRegistry Nat Nat where
  registry := [("n", c9RedoFactory)]
  cache :=
    (SmartCache.init (String × Nat) (Option Nat) 8 CachePolicy.lru none).put
      ("n", 5) none 0

/-- The observable fields of a context object: its `__dict__` as an
insertion-ordered list of (attribute name, value) pairs, values abstracted by
their string representation. Python's `sorted` on `.items()` orders tuples
lexicographically (names first, values on equal names). -/
def pairLe (a b : String × String) : Prop :=
  a.1 < b.1 ∨ (a.1 = b.1 ∧ a.2 ≤ b.2)

instance : DecidableRel pairLe := fun a b => by
  unfold pairLe
  infer_instance

/-- `str(...)` of a sorted list of pairs, as Python renders a list of
2-tuples of strings. -/
def reprItems (l : List (String × String)) : String :=
  "[" ++ String.intercalate ", "
    (l.map fun p => "(" ++ p.1 ++ ", " ++ p.2 ++ ")") ++ "]"

/-- `StrategyRegistry._create_context_key` for a context with `__dict__`:
`md5(str(sorted(context.__dict__.items())).encode()).hexdigest()[:16]`, with
the md5-hexdigest-truncate step abstracted as an arbitrary `digest` function
of the rendered string. -/
def create_context_key (digest : String → String)
    (items : List (String × String)) : String :=
  digest (reprItems (List.insertionSort pairLe items))

end PL

/-! ## Theorems -/

namespace PL

theorem insertAvail_perm (x : Int × String) (l : List (Int × String)) :
    List.Perm (insertAvail x l) (x :: l) := by
  induction l with
  | nil => simp [insertAvail]
  | cons y ys ih =>
    unfold insertAvail
    by_cases h : availGe x y = true
    · rw [if_pos h]
    · rw [if_neg h]
      exact (List.Perm.cons y ih).trans (List.Perm.swap x y ys)

theorem mem_insertAvail {x p : Int × String} {l : List (Int × String)} :
    p ∈ insertAvail x l ↔ p = x ∨ p ∈ l := by
  rw [(insertAvail_perm x l).mem_iff]
  simp

theorem sortAvail_perm (l : List (Int × String)) : List.Perm (sortAvail l) l := by
  suffices h : ∀ acc : List (Int × String),
      List.Perm (l.foldl (fun a x => insertAvail x a) acc) (acc ++ l) by
    simpa using h []
  induction l with
  | nil => intro acc; simp
  | cons x xs ih =>
    intro acc
    exact (ih (insertAvail x acc)).trans
      (((insertAvail_perm x acc).append_right xs).trans List.perm_middle.symm)

theorem find_name_eq {g : ValidationGraph} {v : ValidatorProtocol} {n : String}
    (h : g.find n = some v) : v.name = n := by
  have := List.find?_some h
  simpa using this

theorem find_mem {g : ValidationGraph} {v : ValidatorProtocol} {n : String}
    (h : g.find n = some v) : v ∈ g.validators :=
  List.mem_of_find?_eq_some h

theorem find_isSome_iff {g : ValidationGraph} {n : String} :
    (g.find n).isSome ↔ n ∈ g.names := by
  rw [ValidationGraph.find, List.find?_isSome]
  simp only [ValidationGraph.names, List.mem_map]
  constructor
  · rintro ⟨v, hv, he⟩
    exact ⟨v, hv, by simpa using he⟩
  · rintro ⟨v, hv, he⟩
    exact ⟨v, hv, by simpa using he⟩

theorem find_eq_none_iff {g : ValidationGraph} {n : String} :
    g.find n = none ↔ n ∉ g.names := by
  rw [← find_isSome_iff]
  cases h : g.find n <;> simp [h]

theorem find?_name_of_nodup {l : List ValidatorProtocol}
    (hnd : (l.map (fun v => v.name)).Nodup) {v : ValidatorProtocol} (hv : v ∈ l) :
    l.find? (fun w => w.name == v.name) = some v := by
  induction l with
  | nil => simp at hv
  | cons w ws ih =>
    simp only [List.map_cons, List.nodup_cons, List.mem_map] at hnd
    rcases List.mem_cons.1 hv with h | h
    · subst h
      exact List.find?_cons_of_pos _ (by simp)
    · have hne : (w.name == v.name) = false := by
        rw [beq_eq_false_iff_ne]
        intro he
        exact hnd.1 ⟨v, h, he.symm⟩
      rw [List.find?_cons_of_neg _ (by simp [hne])]
      exact ih hnd.2 h

theorem wf_find_of_mem {g : ValidationGraph} (hwf : g.names.Nodup)
    {v : ValidatorProtocol} (hv : v ∈ g.validators) : g.find v.name = some v := by
  have h := find?_name_of_nodup (by simpa [ValidationGraph.names] using hwf) hv
  simpa [ValidationGraph.find] using h

theorem mem_dependentsOf {g : ValidationGraph} {n d : String} :
    d ∈ g.dependentsOf n ↔ ∃ v ∈ g.validators, v.name = d ∧ n ∈ v.dependencies := by
  simp only [ValidationGraph.dependentsOf, List.mem_map, List.mem_filter]
  constructor
  · rintro ⟨v, ⟨hv, hc⟩, he⟩
    exact ⟨v, hv, he, by simpa using hc⟩
  · rintro ⟨v, hv, he, hd⟩
    exact ⟨v, ⟨hv, by simpa using hd⟩, he⟩

theorem mem_dependentsOf_iff {g : ValidationGraph} (hwf : g.names.Nodup)
    {n d : String} :
    d ∈ g.dependentsOf n ↔ d ∈ g.names ∧ n ∈ g.dependenciesOf d := by
  rw [mem_dependentsOf]
  constructor
  · rintro ⟨v, hv, he, hd⟩
    refine ⟨?_, ?_⟩
    · exact he ▸ List.mem_map_of_mem (fun v => v.name) hv
    · have hf : g.find d = some v := he ▸ wf_find_of_mem hwf hv
      simp [ValidationGraph.dependenciesOf, hf, hd]
  · rintro ⟨hd, hn⟩
    have hs : (g.find d).isSome := find_isSome_iff.2 hd
    rcases Option.isSome_iff_exists.1 hs with ⟨v, hv⟩
    refine ⟨v, find_mem hv, find_name_eq hv, ?_⟩
    simpa [ValidationGraph.dependenciesOf, hv] using hn

theorem dependentsOf_nodup {g : ValidationGraph} (hwf : g.names.Nodup)
    (n : String) : (g.dependentsOf n).Nodup := by
  unfold ValidationGraph.dependentsOf
  have hsub : List.Sublist
      ((g.validators.filter (fun v => v.dependencies.contains n)).map (fun v => v.name))
      (g.validators.map (fun v => v.name)) :=
    (List.filter_sublist _).map _
  exact List.Nodup.sublist hsub hwf

theorem dependenciesOf_subset_names {g : ValidationGraph} (hc : g.closed)
    {n d : String} (hd : d ∈ g.dependenciesOf n) : d ∈ g.names := by
  unfold ValidationGraph.dependenciesOf at hd
  cases hf : g.find n with
  | none => simp [hf] at hd
  | some v =>
    rw [hf] at hd
    exact hc v (find_mem hf) d hd

theorem dependsOn_mem_names {g : ValidationGraph} {a b : String}
    (h : dependsOn g a b) : a ∈ g.names := by
  unfold dependsOn ValidationGraph.dependenciesOf at h
  cases hf : g.find a with
  | none => simp [hf] at h
  | some v =>
    have : (g.find a).isSome := by simp [hf]
    exact find_isSome_iff.1 this

theorem kahnFoldStep_fst (g : ValidationGraph)
    (acc : (String → Int) × List (Int × String)) (d n : String) :
    (kahnFoldStep g acc d).1 n = if n = d then acc.1 d - 1 else acc.1 n := by
  unfold kahnFoldStep
  by_cases h : acc.1 d - 1 = 0
  · rw [if_pos h]
    cases g.find d <;> rfl
  · rw [if_neg h]

theorem kahnFoldStep_snd_of_ne (g : ValidationGraph)
    (acc : (String → Int) × List (Int × String)) (d : String) (h : acc.1 d ≠ 1) :
    (kahnFoldStep g acc d).2 = acc.2 := by
  unfold kahnFoldStep
  rw [if_neg (by rw [Int.sub_eq_zero]; exact h)]

theorem kahnFoldStep_snd_of_none (g : ValidationGraph)
    (acc : (String → Int) × List (Int × String)) (d : String)
    (hf : g.find d = none) : (kahnFoldStep g acc d).2 = acc.2 := by
  unfold kahnFoldStep
  by_cases h : acc.1 d - 1 = 0
  · rw [if_pos h, hf]
  · rw [if_neg h]

theorem kahnFoldStep_snd_of_some (g : ValidationGraph)
    (acc : (String → Int) × List (Int × String)) (d : String)
    (h : acc.1 d = 1) {v : ValidatorProtocol} (hf : g.find d = some v) :
    (kahnFoldStep g acc d).2 = insertAvail (v.priority, d) acc.2 := by
  unfold kahnFoldStep
  rw [if_pos (by rw [Int.sub_eq_zero]; exact h), hf]

theorem kahnFold_deg (g : ValidationGraph) :
    ∀ (l : List String), l.Nodup →
      ∀ (acc : (String → Int) × List (Int × String)) (n : String),
        (l.foldl (kahnFoldStep g) acc).1 n =
          if n ∈ l then acc.1 n - 1 else acc.1 n := by
  intro l
  induction l with
  | nil => intro _ acc n; simp
  | cons d ds ih =>
    intro hnd acc n
    simp only [List.nodup_cons] at hnd
    rw [List.foldl_cons, ih hnd.2, kahnFoldStep_fst]
    by_cases h1 : n ∈ ds
    · have hne : ¬ n = d := by
        intro he
        exact hnd.1 (by rw [← he]; exact h1)
      simp [h1, hne, List.mem_cons]
    · by_cases h2 : n = d
      · subst h2
        simp [h1, hnd.1]
      · simp [h1, h2, List.mem_cons]

theorem kahnNewElems_congr (g : ValidationGraph) {deg1 deg2 : String → Int}
    {l : List String} (h : ∀ d ∈ l, deg1 d = deg2 d) :
    kahnNewElems g deg1 l = kahnNewElems g deg2 l := by
  unfold kahnNewElems
  exact List.filterMap_congr (fun x hx => by rw [h x hx])

theorem kahnNewElems_cons_of_some {g : ValidationGraph} {deg : String → Int}
    {d : String} {ds : List String} (h1 : deg d = 1) {v : ValidatorProtocol}
    (hf : g.find d = some v) :
    kahnNewElems g deg (d :: ds) = (v.priority, d) :: kahnNewElems g deg ds := by
  unfold kahnNewElems
  rw [List.filterMap_cons, if_pos h1, hf]
  rfl

theorem kahnNewElems_cons_of_none {g : ValidationGraph} {deg : String → Int}
    {d : String} {ds : List String} (hf : g.find d = none) :
    kahnNewElems g deg (d :: ds) = kahnNewElems g deg ds := by
  unfold kahnNewElems
  rw [List.filterMap_cons]
  by_cases h1 : deg d = 1
  · rw [if_pos h1, hf]
    rfl
  · rw [if_neg h1]

theorem kahnNewElems_cons_of_ne {g : ValidationGraph} {deg : String → Int}
    {d : String} {ds : List String} (h1 : deg d ≠ 1) :
    kahnNewElems g deg (d :: ds) = kahnNewElems g deg ds := by
  unfold kahnNewElems
  rw [List.filterMap_cons, if_neg h1]

theorem kahnFold_perm (g : ValidationGraph) :
    ∀ (l : List String), l.Nodup →
      ∀ (acc : (String → Int) × List (Int × String)),
        List.Perm (l.foldl (kahnFoldStep g) acc).2
          (acc.2 ++ kahnNewElems g acc.1 l) := by
  intro l
  induction l with
  | nil => intro _ acc; simp [kahnNewElems]
  | cons d ds ih =>
    intro hnd acc
    simp only [List.nodup_cons] at hnd
    rw [List.foldl_cons]
    have hdsame : kahnNewElems g (kahnFoldStep g acc d).1 ds =
        kahnNewElems g acc.1 ds := by
      refine kahnNewElems_congr g (fun x hx => ?_)
      rw [kahnFoldStep_fst]
      refine if_neg ?_
      intro he
      exact hnd.1 (by rw [← he]; exact hx)
    have base := ih hnd.2 (kahnFoldStep g acc d)
    rw [hdsame] at base
    by_cases h1 : acc.1 d = 1
    · cases hf : g.find d with
      | none =>
        rw [kahnFoldStep_snd_of_none g acc d hf] at base
        rw [kahnNewElems_cons_of_none hf]
        exact base
      | some v =>
        rw [kahnFoldStep_snd_of_some g acc d h1 hf] at base
        rw [kahnNewElems_cons_of_some h1 hf]
        refine base.trans ?_
        exact ((insertAvail_perm _ _).append_right _).trans List.perm_middle.symm
    · rw [kahnFoldStep_snd_of_ne g acc d h1] at base
      rw [kahnNewElems_cons_of_ne h1]
      exact base

theorem mem_kahnNewElems {g : ValidationGraph} {deg : String → Int}
    {l : List String} {p : Int × String} :
    p ∈ kahnNewElems g deg l ↔
      ∃ d ∈ l, deg d = 1 ∧ ∃ v, g.find d = some v ∧ p = (v.priority, d) := by
  induction l with
  | nil => simp [kahnNewElems]
  | cons d ds ih =>
    by_cases h1 : deg d = 1
    · cases hf : g.find d with
      | none =>
        rw [kahnNewElems_cons_of_none hf, ih]
        constructor
        · rintro ⟨e, he, h2, v, hv, hp⟩
          exact ⟨e, List.mem_cons_of_mem d he, h2, v, hv, hp⟩
        · rintro ⟨e, he, h2, v, hv, hp⟩
          rcases List.mem_cons.1 he with rfl | he2
          · rw [hf] at hv; cases hv
          · exact ⟨e, he2, h2, v, hv, hp⟩
      | some v =>
        rw [kahnNewElems_cons_of_some h1 hf, List.mem_cons, ih]
        constructor
        · rintro (rfl | ⟨e, he, h2, w, hw, hp⟩)
          · exact ⟨d, List.mem_cons_self d ds, h1, v, hf, rfl⟩
          · exact ⟨e, List.mem_cons_of_mem d he, h2, w, hw, hp⟩
        · rintro ⟨e, he, h2, w, hw, hp⟩
          rcases List.mem_cons.1 he with rfl | he2
          · rw [hf] at hw
            cases hw
            exact Or.inl hp
          · exact Or.inr ⟨e, he2, h2, w, hw, hp⟩
    · rw [kahnNewElems_cons_of_ne h1, ih]
      constructor
      · rintro ⟨e, he, h2, v, hv, hp⟩
        exact ⟨e, List.mem_cons_of_mem d he, h2, v, hv, hp⟩
      · rintro ⟨e, he, h2, v, hv, hp⟩
        rcases List.mem_cons.1 he with rfl | he2
        · exact absurd h2 h1
        · exact ⟨e, he2, h2, v, hv, hp⟩

theorem kahnNewElems_snd_sublist (g : ValidationGraph) (deg : String → Int)
    (l : List String) :
    List.Sublist ((kahnNewElems g deg l).map (fun p => p.2)) l := by
  induction l with
  | nil => simp [kahnNewElems]
  | cons d ds ih =>
    by_cases h1 : deg d = 1
    · cases hf : g.find d with
      | none =>
        rw [kahnNewElems_cons_of_none hf]
        exact ih.cons d
      | some v =>
        rw [kahnNewElems_cons_of_some h1 hf, List.map_cons]
        exact ih.cons₂ d
    · rw [kahnNewElems_cons_of_ne h1]
      exact ih.cons d

theorem filter_and_ne_length {l : List String} (hl : l.Nodup) {x : String}
    (hx : x ∈ l) (p : String → Bool) (hpx : p x = true) :
    (l.filter (fun d => p d && !(d == x))).length + 1 = (l.filter p).length := by
  induction l with
  | nil => simp at hx
  | cons y t ih =>
    simp only [List.nodup_cons] at hl
    rcases List.mem_cons.1 hx with he | ht
    · have hxy : y = x := he.symm
      subst hxy
      have hrest : t.filter (fun d => p d && !(d == y)) = t.filter p := by
        refine List.filter_congr (fun d hd => ?_)
        have hne : (d == y) = false := by
          rw [beq_eq_false_iff_ne]
          intro hcontra
          exact hl.1 (by rw [← hcontra]; exact hd)
        rw [hne]
        simp
      rw [List.filter_cons, List.filter_cons]
      have hself : (p y && !(y == y)) = false := by simp
      rw [hself, hpx]
      simp [hrest]
    · have hne : (y == x) = false := by
        rw [beq_eq_false_iff_ne]
        intro hcontra
        exact hl.1 (by rw [hcontra]; exact ht)
      rw [List.filter_cons, List.filter_cons]
      by_cases hpy : p y = true
      · rw [hpy, hne]
        simp only [Bool.not_false, Bool.true_and, if_pos, List.length_cons]
        have := ih hl.2 ht
        omega
      · have hpy2 : p y = false := by
          cases hh : p y
          · rfl
          · exact absurd hh hpy
        rw [hpy2]
        simp only [Bool.false_and, if_false]
        exact ih hl.2 ht

theorem indexOf_lt_of_mem_take {l : List String} {d : String} {i : Nat}
    (h : d ∈ l.take i) : l.indexOf d < i := by
  induction l generalizing i with
  | nil => simp at h
  | cons x xs ih =>
    cases i with
    | zero => simp at h
    | succ j =>
      rw [List.take_succ_cons] at h
      rcases List.mem_cons.1 h with he | ht
      · subst he
        simp [List.indexOf_cons_self]
      · by_cases hxd : d = x
        · subst hxd
          simp [List.indexOf_cons_self]
        · rw [List.indexOf_cons_ne _ (fun he => hxd he.symm)]
          exact Nat.succ_lt_succ (ih ht)

theorem decide_not_mem_append_singleton (d cur : String) (order : List String) :
    decide (d ∉ order ++ [cur]) = (decide (d ∉ order) && !(d == cur)) := by
  by_cases h1 : d ∈ order <;> by_cases h2 : d = cur <;> simp [h1, h2, List.mem_append]

theorem deg_zero_deps_sub {g : ValidationGraph} {deg : String → Int}
    {order : List String} (hD : DegOK g deg order) {n : String} (hn : n ∈ g.names)
    (h0 : deg n = 0) : ∀ d ∈ g.dependenciesOf n, d ∈ order := by
  have h := hD n hn
  rw [h0] at h
  have hl : ((g.dependenciesOf n).filter (fun d => decide (d ∉ order))).length = 0 := by
    exact_mod_cast h.symm
  rw [List.length_eq_zero] at hl
  intro d hd
  by_contra hmem
  have : d ∈ (g.dependenciesOf n).filter (fun d => decide (d ∉ order)) := by
    rw [List.mem_filter]
    exact ⟨hd, by simpa using hmem⟩
  rw [hl] at this
  simp at this

theorem topo_mem_deps_sub {g : ValidationGraph} {order : List String}
    (hT : TopoOK g order) {a : String} (ha : a ∈ order) :
    ∀ d ∈ g.dependenciesOf a, d ∈ order := by
  rcases List.mem_iff_get.1 ha with ⟨⟨i, hi⟩, hget⟩
  intro d hd
  have := hT i hi d (by rw [hget]; exact hd)
  exact List.take_subset i order this

theorem deg_eq_zero_of_mem_order {g : ValidationGraph} {deg : String → Int}
    {order : List String} (hD : DegOK g deg order) (hT : TopoOK g order)
    {n : String} (hn : n ∈ g.names) (ha : n ∈ order) : deg n = 0 := by
  rw [hD n hn]
  have : (g.dependenciesOf n).filter (fun d => decide (d ∉ order)) = [] := by
    rw [List.filter_eq_nil_iff]
    intro d hd
    simp only [decide_eq_true_eq, Decidable.not_not]
    exact topo_mem_deps_sub hT ha d hd
  rw [this]
  rfl

theorem depsNodup_of_wf {g : ValidationGraph} (hwf : g.wf) (n : String) :
    (g.dependenciesOf n).Nodup := by
  unfold ValidationGraph.dependenciesOf
  cases hf : g.find n with
  | none => simp
  | some v => exact hwf.2 v (find_mem hf)

theorem iter_OrderOK {g : ValidationGraph} {deg : String → Int}
    {order : List String} {current : String}
    (hD : DegOK g deg order) (hO : OrderOK g order)
    (hcn : current ∈ g.names) (hco : current ∉ order) (hc0 : deg current = 0) :
    OrderOK g (order ++ [current]) := by
  obtain ⟨hnd, hmem, hT⟩ := hO
  refine ⟨by simp [List.nodup_append, hnd, hco], ?_, ?_⟩
  · intro a ha
    rcases List.mem_append.1 ha with h | h
    · exact hmem a h
    · rw [List.mem_singleton.1 h]; exact hcn
  · intro i hi d hd
    rcases Nat.lt_or_ge i order.length with hlt | hge
    · have hget : (order ++ [current]).get ⟨i, hi⟩ = order.get ⟨i, hlt⟩ := by
        simp [List.getElem_append_left hlt]
      rw [hget] at hd
      have := hT i hlt d hd
      rw [List.take_append_of_le_length (Nat.le_of_lt hlt)]
      exact this
    · have hieq : i = order.length := by
        have : i < order.length + 1 := by simpa using hi
        omega
      have hget : (order ++ [current]).get ⟨i, hi⟩ = current := by
        simp [List.getElem_concat_length order current i hieq]
      rw [hget] at hd
      have hdo : d ∈ order := deg_zero_deps_sub hD hcn hc0 d hd
      rw [hieq, List.take_left]
      exact hdo

theorem iter_DegOK {g : ValidationGraph} {deg : String → Int}
    {order : List String} {current : String}
    (hwf : g.wf) (hD : DegOK g deg order) (hco : current ∉ order) :
    DegOK g (fun n => if n ∈ g.dependentsOf current then deg n - 1 else deg n)
      (order ++ [current]) := by
  intro n hn
  have hb : (fun n => if n ∈ g.dependentsOf current then deg n - 1 else deg n) n
      = if n ∈ g.dependentsOf current then deg n - 1 else deg n := rfl
  rw [hb]
  by_cases hdep : n ∈ g.dependentsOf current
  · rw [if_pos hdep]
    have hcd : current ∈ g.dependenciesOf n := ((mem_dependentsOf_iff hwf.1).1 hdep).2
    have hnodup : (g.dependenciesOf n).Nodup := depsNodup_of_wf hwf n
    have hkey := filter_and_ne_length hnodup hcd
      (fun d => decide (d ∉ order)) (by simpa using hco)
    have hfe : (g.dependenciesOf n).filter (fun d => decide (d ∉ order ++ [current])) =
        (g.dependenciesOf n).filter
          (fun d => decide (d ∉ order) && !(d == current)) := by
      refine List.filter_congr (fun d _ => ?_)
      exact decide_not_mem_append_singleton d current order
    rw [hfe, hD n hn]
    have hkey2 : ((g.dependenciesOf n).filter
        (fun d => decide (d ∉ order) && !(d == current))).length + 1 =
        ((g.dependenciesOf n).filter (fun d => decide (d ∉ order))).length := hkey
    omega
  · rw [if_neg hdep]
    have hncd : current ∉ g.dependenciesOf n := by
      intro hcontra
      exact hdep ((mem_dependentsOf_iff hwf.1).2 ⟨hn, hcontra⟩)
    have hfe : (g.dependenciesOf n).filter (fun d => decide (d ∉ order ++ [current])) =
        (g.dependenciesOf n).filter (fun d => decide (d ∉ order)) := by
      refine List.filter_congr (fun d hd => ?_)
      have hne : d ≠ current := fun he => hncd (he ▸ hd)
      by_cases h1 : d ∈ order <;> simp [h1, hne, List.mem_append]
    rw [hfe]
    exact hD n hn

theorem AvailOK_perm {g : ValidationGraph} {a b : List (Int × String)}
    {deg : String → Int} {order : List String} (hperm : List.Perm a b)
    (h : AvailOK g b deg order) : AvailOK g a deg order :=
  ⟨((hperm.map (fun p => p.2)).nodup_iff).2 h.1,
    fun p hp => h.2 p (hperm.mem_iff.1 hp)⟩

theorem AvailComplete_perm {g : ValidationGraph} {a b : List (Int × String)}
    {deg : String → Int} {order : List String} (hperm : List.Perm a b)
    (h : AvailComplete g b deg order) : AvailComplete g a deg order := by
  intro n hn hno h0
  exact ((hperm.map (fun p => p.2)).mem_iff).2 (h n hn hno h0)

theorem iter_AvailOK {g : ValidationGraph} {deg : String → Int}
    {order : List String} {pr : Int} {current : String}
    {rest : List (Int × String)} (hwf : g.wf)
    (hA : AvailOK g ((pr, current) :: rest) deg order)
    (hD : DegOK g deg order) (hO : OrderOK g order) :
    AvailOK g (rest ++ kahnNewElems g deg (g.dependentsOf current))
      (fun n => if n ∈ g.dependentsOf current then deg n - 1 else deg n)
      (order ++ [current]) := by
  obtain ⟨hsnd, hAp⟩ := hA
  rw [List.map_cons, List.nodup_cons] at hsnd
  obtain ⟨hcni, hrnd⟩ := hsnd
  obtain ⟨hcn, hco, hc0⟩ := hAp (pr, current) (List.mem_cons_self _ _)
  constructor
  · rw [List.map_append]
    rw [List.nodup_append]
    refine ⟨hrnd, ?_, ?_⟩
    · exact List.Nodup.sublist (kahnNewElems_snd_sublist g deg _)
        (dependentsOf_nodup hwf.1 current)
    · intro x hxr hxn
      rcases List.mem_map.1 hxn with ⟨p, hp, hpx⟩
      rcases mem_kahnNewElems.1 hp with ⟨d, _, h1, v, _, rfl⟩
      rcases List.mem_map.1 hxr with ⟨q, hq, hqx⟩
      have h0 := (hAp q (List.mem_cons_of_mem _ hq)).2.2
      rw [hqx] at h0
      rw [← hpx] at h0
      simp only at h0
      rw [h0] at h1
      exact absurd h1 (by norm_num)
  · intro p hp
    rcases List.mem_append.1 hp with hpr | hpn
    · obtain ⟨hn, hno, h0⟩ := hAp p (List.mem_cons_of_mem _ hpr)
      have hpnec : p.2 ≠ current := by
        intro he
        exact hcni (he ▸ List.mem_map_of_mem (fun p => p.2) hpr)
      refine ⟨hn, ?_, ?_⟩
      · intro hmem
        rcases List.mem_append.1 hmem with h | h
        · exact hno h
        · exact hpnec (List.mem_singleton.1 h)
      · have hnd : p.2 ∉ g.dependentsOf current := by
          intro hdep
          have hcd := ((mem_dependentsOf_iff hwf.1).1 hdep).2
          exact hco (deg_zero_deps_sub hD hn h0 current hcd)
        simp only [if_neg hnd]
        exact h0
    · rcases mem_kahnNewElems.1 hpn with ⟨d, hd, h1, v, hfv, rfl⟩
      have hdn : d ∈ g.names := ((mem_dependentsOf_iff hwf.1).1 hd).1
      have hdnc : d ≠ current := by
        intro he
        subst he
        have hdd := ((mem_dependentsOf_iff hwf.1).1 hd).2
        exact hco (deg_zero_deps_sub hD hcn hc0 d hdd)
      have hdno : d ∉ order := by
        intro hmem
        have := deg_eq_zero_of_mem_order hD hO.2.2 hdn hmem
        rw [this] at h1
        exact absurd h1 (by norm_num)
      refine ⟨hdn, ?_, ?_⟩
      · intro hmem
        rcases List.mem_append.1 hmem with h | h
        · exact hdno h
        · exact hdnc (List.mem_singleton.1 h)
      · simp only [if_pos hd]
        rw [h1]
        rfl

theorem iter_AvailComplete {g : ValidationGraph} {deg : String → Int}
    {order : List String} {pr : Int} {current : String}
    {rest : List (Int × String)} (hwf : g.wf)
    (hA : AvailOK g ((pr, current) :: rest) deg order)
    (hC : AvailComplete g ((pr, current) :: rest) deg order) :
    AvailComplete g (rest ++ kahnNewElems g deg (g.dependentsOf current))
      (fun n => if n ∈ g.dependentsOf current then deg n - 1 else deg n)
      (order ++ [current]) := by
  intro n hn hno2 h02
  simp only at h02
  rw [List.map_append]
  by_cases hdep : n ∈ g.dependentsOf current
  · rw [if_pos hdep] at h02
    have h1 : deg n = 1 := by omega
    rcases Option.isSome_iff_exists.1 (find_isSome_iff.2 hn) with ⟨v, hv⟩
    refine List.mem_append.2 (Or.inr ?_)
    refine List.mem_map.2 ⟨(v.priority, n), ?_, rfl⟩
    exact mem_kahnNewElems.2 ⟨n, hdep, h1, v, hv, rfl⟩
  · rw [if_neg hdep] at h02
    have hno : n ∉ order := fun h => hno2 (List.mem_append.2 (Or.inl h))
    have hnc : n ≠ current := by
      intro he
      exact hno2 (List.mem_append.2 (Or.inr (he ▸ List.mem_singleton_self current)))
    have hmem := hC n hn hno h02
    rw [List.map_cons] at hmem
    rcases List.mem_cons.1 hmem with h | h
    · exact absurd h hnc
    · exact List.mem_append.2 (Or.inl h)

/-- The combined invariant-preservation step for one iteration of the Kahn
loop. -/
theorem kahn_iteration {g : ValidationGraph} (hwf : g.wf) {pr : Int}
    {current : String} {rest : List (Int × String)} {deg : String → Int}
    {order : List String}
    (hA : AvailOK g ((pr, current) :: rest) deg order)
    (hD : DegOK g deg order) (hO : OrderOK g order) :
    AvailOK g ((g.dependentsOf current).foldl (kahnFoldStep g) (deg, rest)).2
      ((g.dependentsOf current).foldl (kahnFoldStep g) (deg, rest)).1
      (order ++ [current]) ∧
    DegOK g ((g.dependentsOf current).foldl (kahnFoldStep g) (deg, rest)).1
      (order ++ [current]) ∧
    OrderOK g (order ++ [current]) ∧
    (AvailComplete g ((pr, current) :: rest) deg order →
      AvailComplete g ((g.dependentsOf current).foldl (kahnFoldStep g) (deg, rest)).2
        ((g.dependentsOf current).foldl (kahnFoldStep g) (deg, rest)).1
        (order ++ [current])) := by
  have hnodupdep := dependentsOf_nodup hwf.1 current
  have hstep1 : ((g.dependentsOf current).foldl (kahnFoldStep g) (deg, rest)).1 =
      fun n => if n ∈ g.dependentsOf current then deg n - 1 else deg n :=
    funext (fun n => kahnFold_deg g _ hnodupdep (deg, rest) n)
  have hperm : List.Perm
      ((g.dependentsOf current).foldl (kahnFoldStep g) (deg, rest)).2
      (rest ++ kahnNewElems g deg (g.dependentsOf current)) :=
    kahnFold_perm g _ hnodupdep (deg, rest)
  obtain ⟨hcn, hco, hc0⟩ := hA.2 (pr, current) (List.mem_cons_self _ _)
  refine ⟨?_, ?_, ?_, ?_⟩
  · rw [hstep1]
    exact AvailOK_perm hperm (iter_AvailOK hwf hA hD hO)
  · rw [hstep1]
    exact iter_DegOK hwf hD hco
  · exact iter_OrderOK hD hO hcn hco hc0
  · intro hC
    rw [hstep1]
    exact AvailComplete_perm hperm (iter_AvailComplete hwf hA hC)

theorem kahnLoop_sound {g : ValidationGraph} (hwf : g.wf) :
    ∀ (fuel : Nat) (avail : List (Int × String)) (deg : String → Int)
      (order : List String),
      AvailOK g avail deg order → DegOK g deg order → OrderOK g order →
      OrderOK g (kahnLoop g fuel avail deg order) := by
  intro fuel
  induction fuel with
  | zero =>
    intro avail deg order _ _ hO
    simpa [kahnLoop] using hO
  | succ f ih =>
    intro avail deg order hA hD hO
    cases avail with
    | nil => simpa [kahnLoop] using hO
    | cons p rest =>
      obtain ⟨pr, current⟩ := p
      obtain ⟨hA2, hD2, hO2, _⟩ := kahn_iteration hwf hA hD hO
      simp only [kahnLoop]
      exact ih _ _ _ hA2 hD2 hO2

theorem kahnLoop_complete {g : ValidationGraph} (hwf : g.wf) :
    ∀ (fuel : Nat) (avail : List (Int × String)) (deg : String → Int)
      (order : List String),
      AvailOK g avail deg order → DegOK g deg order → OrderOK g order →
      AvailComplete g avail deg order →
      fuel + order.length = g.names.length →
      ∀ n ∈ g.names, n ∉ kahnLoop g fuel avail deg order →
        ∃ d ∈ g.dependenciesOf n, d ∉ kahnLoop g fuel avail deg order := by
  intro fuel
  induction fuel with
  | zero =>
    intro avail deg order _ _ hO _ hlen n hn hnr
    exfalso
    have hsub : List.Subperm order g.names := List.Nodup.subperm hO.1 hO.2.1
    have hperm : List.Perm order g.names :=
      hsub.perm_of_length_le (by omega)
    have : n ∈ order := hperm.mem_iff.2 hn
    simp only [kahnLoop] at hnr
    exact hnr this
  | succ f ih =>
    intro avail deg order hA hD hO hC hlen n hn hnr
    cases avail with
    | nil =>
      simp only [kahnLoop] at hnr ⊢
      have hdeg : deg n ≠ 0 := by
        intro h0
        have := hC n hn hnr h0
        simp at this
      have hlenpos :
          ((g.dependenciesOf n).filter (fun d => decide (d ∉ order))).length ≠ 0 := by
        intro h0
        apply hdeg
        rw [hD n hn, h0]
        rfl
      have hne : (g.dependenciesOf n).filter (fun d => decide (d ∉ order)) ≠ [] := by
        intro h0
        rw [h0] at hlenpos
        simp at hlenpos
      rcases List.exists_mem_of_ne_nil _ hne with ⟨d, hd⟩
      rw [List.mem_filter] at hd
      exact ⟨d, hd.1, by simpa using hd.2⟩
    | cons p rest =>
      obtain ⟨pr, current⟩ := p
      obtain ⟨hA2, hD2, hO2, hC2⟩ := kahn_iteration hwf hA hD hO
      simp only [kahnLoop] at hnr ⊢
      refine ih _ _ _ hA2 hD2 hO2 (hC2 hC) ?_ n hn hnr
      rw [List.length_append]
      simp only [List.length_singleton]
      omega

theorem init_AvailOK (g : ValidationGraph) (hwf : g.wf) :
    AvailOK g (kahnAvailInit g) (kahnDegInit g) [] := by
  have hperm := sortAvail_perm
    ((g.validators.filter (fun v => v.dependencies.isEmpty)).map
      (fun v => (v.priority, v.name)))
  refine AvailOK_perm hperm ?_
  constructor
  · rw [List.map_map]
    have hsub : List.Sublist
        ((g.validators.filter (fun v => v.dependencies.isEmpty)).map
          (fun v => v.name))
        (g.validators.map (fun v => v.name)) :=
      (List.filter_sublist _).map _
    have := List.Nodup.sublist hsub hwf.1
    simpa [Function.comp] using this
  · intro p hp
    rcases List.mem_map.1 hp with ⟨v, hv, rfl⟩
    rw [List.mem_filter] at hv
    have hdeps : v.dependencies = [] := by
      have := hv.2
      simpa [List.isEmpty_iff] using this
    refine ⟨List.mem_map_of_mem (fun v => v.name) hv.1, by simp, ?_⟩
    unfold kahnDegInit
    have hf : g.find v.name = some v := wf_find_of_mem hwf.1 hv.1
    simp [ValidationGraph.dependenciesOf, hf, hdeps]

theorem init_DegOK (g : ValidationGraph) : DegOK g (kahnDegInit g) [] := by
  intro n _
  unfold kahnDegInit
  have : (g.dependenciesOf n).filter (fun d => decide (d ∉ ([] : List String)))
      = g.dependenciesOf n := by
    rw [List.filter_eq_self]
    intro d _
    simp
  rw [this]

theorem init_OrderOK (g : ValidationGraph) : OrderOK g ([] : List String) := by
  refine ⟨List.nodup_nil, by simp, ?_⟩
  intro i hi
  simp at hi

theorem init_AvailComplete (g : ValidationGraph) (hwf : g.wf) :
    AvailComplete g (kahnAvailInit g) (kahnDegInit g) [] := by
  intro n hn _ h0
  have hperm := sortAvail_perm
    ((g.validators.filter (fun v => v.dependencies.isEmpty)).map
      (fun v => (v.priority, v.name)))
  rcases Option.isSome_iff_exists.1 (find_isSome_iff.2 hn) with ⟨v, hv⟩
  have hname : v.name = n := find_name_eq hv
  have hdeps : v.dependencies = [] := by
    unfold kahnDegInit at h0
    have hlen : (g.dependenciesOf n).length = 0 := by exact_mod_cast h0
    rw [List.length_eq_zero] at hlen
    have : g.dependenciesOf n = v.dependencies := by
      simp [ValidationGraph.dependenciesOf, hv]
    rw [← this]
    exact hlen
  refine ((hperm.map (fun p => p.2)).mem_iff).2 ?_
  rw [List.map_map]
  refine List.mem_map.2 ⟨v, ?_, by simpa using hname⟩
  rw [List.mem_filter]
  exact ⟨find_mem hv, by simp [hdeps]⟩

theorem kahnOrder_OrderOK (g : ValidationGraph) (hwf : g.wf) :
    OrderOK g (kahnOrder g) :=
  kahnLoop_sound hwf _ _ _ _ (init_AvailOK g hwf) (init_DegOK g) (init_OrderOK g)

theorem kahnOrder_complete_prop (g : ValidationGraph) (hwf : g.wf) :
    ∀ n ∈ g.names, n ∉ kahnOrder g →
      ∃ d ∈ g.dependenciesOf n, d ∉ kahnOrder g :=
  kahnLoop_complete hwf _ _ _ _ (init_AvailOK g hwf) (init_DegOK g)
    (init_OrderOK g) (init_AvailComplete g hwf) (by simp)

theorem orderOK_strict {g : ValidationGraph} {res : List String}
    (hO : OrderOK g res) :
    ∀ a ∈ res, ∀ d ∈ g.dependenciesOf a,
      d ∈ res ∧ res.indexOf d < res.indexOf a := by
  intro a ha d hd
  have hi : res.indexOf a < res.length := List.indexOf_lt_length.2 ha
  have hget : res.get ⟨res.indexOf a, hi⟩ = a := by
    simpa using List.getElem_indexOf hi
  have htake := hO.2.2 (res.indexOf a) hi d (by rw [hget]; exact hd)
  exact ⟨List.take_subset _ _ htake, indexOf_lt_of_mem_take htake⟩

theorem isCycle_succ {g : ValidationGraph} {c : List String} (hc : isCycle g c) :
    ∀ x ∈ c, ∃ y ∈ c, dependsOn g x y := by
  obtain ⟨hne, hchain, a, b, hhead, hlast, hdep⟩ := hc
  intro x hx
  rcases List.mem_iff_get.1 hx with ⟨⟨i, hi⟩, hget⟩
  by_cases hlt : i < c.length - 1
  · have hr := List.chain'_iff_get.1 hchain i hlt
    have hmem : c.get ⟨i + 1, by omega⟩ ∈ c := List.get_mem c (i + 1) (by omega)
    refine ⟨c.get ⟨i + 1, by omega⟩, hmem, ?_⟩
    rw [← hget]
    exact hr
  · have hieq : i = c.length - 1 := by omega
    have hxb : x = b := by
      have hlast2 := hlast
      rw [List.getLast?_eq_getElem? c, ← hieq, List.getElem?_eq_getElem hi] at hlast2
      have h3 := Option.some_inj.1 hlast2
      rw [← hget]
      simpa using h3
    have hha : a ∈ c := by
      cases c with
      | nil => simp at hne
      | cons u t =>
        have : u = a := by simpa using hhead
        rw [← this]
        exact List.mem_cons_self u t
    exact ⟨a, hha, hxb ▸ hdep⟩

theorem cycle_disjoint_of_orderOK {g : ValidationGraph} {res : List String}
    (hO : OrderOK g res) {c : List String} (hc : isCycle g c) :
    ∀ x ∈ c, x ∉ res := by
  have key : ∀ k, ∀ x ∈ c, x ∈ res → res.indexOf x = k → False := by
    intro k
    induction k using Nat.strong_induction_on with
    | _ k ih =>
      intro x hxc hxr hidx
      rcases isCycle_succ hc x hxc with ⟨y, hyc, hdep⟩
      rcases orderOK_strict hO x hxr y hdep with ⟨hyr, hlt⟩
      rw [hidx] at hlt
      exact ih (res.indexOf y) hlt y hyc hyr rfl
  intro x hxc hxr
  exact key (res.indexOf x) x hxc hxr rfl

theorem exists_cycle_of_stuck (g : ValidationGraph) {res : List String}
    (hprop : ∀ n ∈ g.names, n ∉ res → ∃ d ∈ g.dependenciesOf n, d ∉ res)
    (hclosed : g.closed) {x0 : String} (hx0 : x0 ∈ g.names) (hx0r : x0 ∉ res) :
    ∃ c, isCycle g c := by
  classical
  let F : String → String := fun n =>
    match (g.dependenciesOf n).find? (fun d => decide (d ∉ res)) with
    | some d => d
    | none => n
  have hF : ∀ n ∈ g.names, n ∉ res → F n ∈ g.dependenciesOf n ∧ F n ∉ res := by
    intro n hn hr
    rcases hprop n hn hr with ⟨d, hd, hdr⟩
    have hsome : ((g.dependenciesOf n).find? (fun d => decide (d ∉ res))).isSome :=
      List.find?_isSome.2 ⟨d, hd, by simpa using hdr⟩
    rcases Option.isSome_iff_exists.1 hsome with ⟨e, he⟩
    have he1 : e ∈ g.dependenciesOf n := List.mem_of_find?_eq_some he
    have he2 : e ∉ res := by simpa using List.find?_some he
    have : F n = e := by simp only [F, he]
    rw [this]
    exact ⟨he1, he2⟩
  let seq : Nat → String := fun k => F^[k] x0
  have hseq : ∀ k, seq k ∈ g.names ∧ seq k ∉ res := by
    intro k
    induction k with
    | zero => exact ⟨hx0, hx0r⟩
    | succ j ihj =>
      have he : seq (j + 1) = F (seq j) := Function.iterate_succ_apply' F j x0
      rw [he]
      obtain ⟨h1, h2⟩ := hF (seq j) ihj.1 ihj.2
      exact ⟨dependenciesOf_subset_names hclosed h1, h2⟩
  have hdep : ∀ k, dependsOn g (seq k) (seq (k + 1)) := by
    intro k
    have he : seq (k + 1) = F (seq k) := Function.iterate_succ_apply' F k x0
    rw [he]
    exact (hF (seq k) (hseq k).1 (hseq k).2).1
  have hcard : (g.names.toFinset).card < (Finset.range (g.names.length + 1)).card := by
    rw [Finset.card_range]
    exact Nat.lt_succ_of_le (List.toFinset_card_le _)
  have hmaps : ∀ a ∈ Finset.range (g.names.length + 1), seq a ∈ g.names.toFinset :=
    fun a _ => List.mem_toFinset.2 (hseq a).1
  obtain ⟨i, _, j, _, hij, heq⟩ :=
    Finset.exists_ne_map_eq_of_card_lt_of_maps_to hcard hmaps
  obtain ⟨i, j, hlt, heq2⟩ : ∃ i j, i < j ∧ seq i = seq j := by
    rcases Nat.lt_or_ge i j with h | h
    · exact ⟨i, j, h, heq⟩
    · have : j < i := by omega
      exact ⟨j, i, this, heq.symm⟩
  obtain ⟨m, hm⟩ : ∃ m, j - i = m + 1 := ⟨j - i - 1, by omega⟩
  refine ⟨(List.range (m + 1)).map (fun t => seq (i + t)), ?_, ?_, ?_⟩
  · simp
  · rw [List.chain'_iff_get]
    intro t ht
    have hlen : ((List.range (m + 1)).map (fun t => seq (i + t))).length = m + 1 := by
      simp
    rw [hlen] at ht
    have h1 : ((List.range (m + 1)).map (fun t => seq (i + t))).get
        ⟨t, by omega⟩ = seq (i + t) := by
      simp
    have h2 : ((List.range (m + 1)).map (fun t => seq (i + t))).get
        ⟨t + 1, by omega⟩ = seq (i + (t + 1)) := by
      simp
    rw [h1, h2]
    have : i + (t + 1) = (i + t) + 1 := by omega
    rw [this]
    exact hdep (i + t)
  · refine ⟨seq i, seq (i + m), ?_, ?_, ?_⟩
    · cases hr : List.range (m + 1) with
      | nil =>
        have := List.length_range (m + 1)
        rw [hr] at this
        simp at this
      | cons u t =>
        have hu : u = 0 := by
          have := List.range_succ_eq_map m
          rw [hr] at this
          exact (List.cons.injEq _ _ _ _ ▸ this).1
        simp only [List.map_cons, List.head?_cons, hu]
        simp
    · have hlen : ((List.range (m + 1)).map (fun t => seq (i + t))).length = m + 1 := by
        simp
      rw [List.getLast?_eq_getElem?, hlen]
      simp only [Nat.add_sub_cancel]
      have hm2 : m < ((List.range (m + 1)).map (fun t => seq (i + t))).length := by
        rw [hlen]; omega
      rw [List.getElem?_eq_getElem hm2]
      congr 1
      simp
    · have h1 := hdep (i + m)
      have h2 : i + m + 1 = j := by omega
      rw [h2] at h1
      rw [← heq2] at h1
      exact h1

/-- A rank function decreasing along every stored dependency edge makes a
graph acyclic. The hypothesis is decidable for concrete graphs. -/
theorem acyclic_of_rank (g : ValidationGraph) (rank : String → Nat)
    (h : ∀ v ∈ g.validators, ∀ d ∈ v.dependencies, rank d < rank v.name) :
    ∀ c, ¬ isCycle g c := by
  have hedge : ∀ a b, dependsOn g a b → rank b < rank a := by
    intro a b hab
    unfold dependsOn ValidationGraph.dependenciesOf at hab
    cases hf : g.find a with
    | none => simp [hf] at hab
    | some v =>
      rw [hf] at hab
      have := h v (find_mem hf) b hab
      rwa [find_name_eq hf] at this
  rintro c ⟨hne, hchain, a, b, hhead, hlast, hdep⟩
  have hmono : ∀ (t : List String) (x y : String), t.Chain' (dependsOn g) →
      t.head? = some x → t.getLast? = some y → rank y ≤ rank x := by
    intro t
    induction t with
    | nil => intro x y _ hx; simp at hx
    | cons u t ih =>
      intro x y hch hx hy
      cases t with
      | nil =>
        simp at hx hy
        subst hx; subst hy; exact le_refl _
      | cons w t2 =>
        have h1 : dependsOn g u w := (List.chain'_cons.1 hch).1
        have h2 := ih w y (List.chain'_cons.1 hch).2 rfl (by simpa using hy)
        have hx2 : u = x := by simpa using hx
        subst hx2
        exact le_of_lt (lt_of_le_of_lt h2 (hedge u w h1))
  have h1 := hmono c a b hchain hhead hlast
  have h2 := hedge b a hdep
  omega

theorem get_execution_order_ok_eq {g : ValidationGraph} {l : List String}
    (h : g.get_execution_order = Except.ok l) : l = kahnOrder g := by
  unfold ValidationGraph.get_execution_order at h
  by_cases hc : (kahnOrder g).length = g.names.length
  · rw [if_pos hc] at h
    injection h with h2
    exact h2.symm
  · rw [if_neg hc] at h
    cases h

theorem get_execution_order_ok_registered {g : ValidationGraph} (hwf : g.wf)
    {l : List String} (h : g.get_execution_order = Except.ok l) :
    ∀ m ∈ l, (g.find m).isSome := by
  intro m hm
  rw [get_execution_order_ok_eq h] at hm
  exact find_isSome_iff.2 ((kahnOrder_OrderOK g hwf).2.1 m hm)

section CacheSyncLemmas

variable {K V : Type} [BEq K] [LawfulBEq K]

theorem auxUpdate_nodup {l : List K} (hl : l.Nodup) (k : K) :
    ((if l.contains k then l.erase k else l) ++ [k]).Nodup := by
  by_cases hc : l.contains k = true
  · rw [if_pos hc]
    rw [List.nodup_append]
    refine ⟨List.Nodup.erase k hl, List.nodup_singleton k, ?_⟩
    intro x hx hk
    rw [List.mem_singleton] at hk
    subst hk
    exact ((List.Nodup.mem_erase_iff hl).1 hx).1 rfl
  · rw [if_neg hc]
    rw [List.nodup_append]
    refine ⟨hl, List.nodup_singleton k, ?_⟩
    intro x hx hk
    rw [List.mem_singleton] at hk
    subst hk
    exact hc (by simpa using hx)

theorem mem_auxUpdate {l : List K} (hl : l.Nodup) (k x : K) :
    x ∈ (if l.contains k then l.erase k else l) ++ [k] ↔ x = k ∨ x ∈ l := by
  rw [List.mem_append, List.mem_singleton]
  by_cases hc : l.contains k = true
  · rw [if_pos hc]
    rw [List.Nodup.mem_erase_iff hl]
    have : k ∈ l := by simpa using hc
    by_cases hx : x = k <;> simp [hx, this]
  · rw [if_neg hc]
    tauto

theorem auxErase_nodup {l : List K} (hl : l.Nodup) (k : K) :
    (if l.contains k then l.erase k else l).Nodup := by
  by_cases hc : l.contains k = true
  · rw [if_pos hc]
    exact List.Nodup.erase k hl
  · rw [if_neg hc]
    exact hl

theorem mem_auxErase {l : List K} (hl : l.Nodup) (k x : K) (hk : k ∈ l) :
    x ∈ (if l.contains k then l.erase k else l) ↔ x ∈ l ∧ x ≠ k := by
  have hc : l.contains k = true := by simpa using hk
  rw [if_pos hc, List.Nodup.mem_erase_iff hl]
  tauto

theorem length_eq_of_nodup_mem_iff {l1 l2 : List K} (h1 : l1.Nodup)
    (h2 : l2.Nodup) (h : ∀ x, x ∈ l1 ↔ x ∈ l2) : l1.length = l2.length := by
  have hp1 : List.Subperm l1 l2 := List.Nodup.subperm h1 (fun x hx => (h x).1 hx)
  have hp2 : List.Subperm l2 l1 := List.Nodup.subperm h2 (fun x hx => (h x).2 hx)
  exact (hp1.antisymm hp2).length_eq

theorem policy_removeKey (s : SmartCache K V) (k : K) :
    (s.removeKey k).policy = s.policy := by
  unfold SmartCache.removeKey
  split <;> rfl

theorem policy_get (s : SmartCache K V) (k : K) (now : Int) :
    ((s.get k now).2).policy = s.policy := by
  unfold SmartCache.get
  split
  · rfl
  · split
    · exact policy_removeKey s k
    · split <;> rfl

theorem policy_evictOne (s : SmartCache K V) : s.evictOne.policy = s.policy := by
  unfold SmartCache.evictOne
  split
  · rfl
  · split
    · split <;> rfl
    · rfl
    · split <;> rfl
    · rfl

theorem policy_stage1 (s : SmartCache K V) (k : K) :
    (if s.cache.length ≥ s.max_size && (s.cache.lookup k).isNone
      then s.evictOne else s).policy = s.policy := by
  split
  · exact policy_evictOne s
  · rfl

theorem policy_put (s : SmartCache K V) (k : K) (v : V) (now : Int) :
    (s.put k v now).policy = s.policy := by
  unfold SmartCache.put
  cases hpol : s.policy <;> simp only [hpol] <;>
    exact (policy_stage1 s k).trans hpol

theorem policy_applyOp (s : SmartCache K V) (op : CacheOp K V) :
    (s.applyOp op).policy = s.policy := by
  cases op with
  | get k now => exact policy_get s k now
  | put k v now => exact policy_put s k v now
  | clear => rfl

end CacheSyncLemmas

/-- Claim C2 (counterexample). The graph with a single validator `A`
depending on the never-registered name `B` is acyclic, yet
`get_execution_order` raises the cyclic-dependency error (naming `{A}`)
instead of returning an order: the claim's first half fails for acyclic
graphs with dangling dependencies. -/
theorem c2_counterexample :
    (∀ c, ¬ isCycle c2DanglingGraph c) ∧
    c2DanglingGraph.get_execution_order = Except.error ["A"] :=
  ⟨acyclic_of_rank c2DanglingGraph (fun n => if n = "A" then 1 else 0) (by decide),
    rfl⟩

/-- Claim C2 (amended). For every well-formed graph (distinct validator
names, duplicate-free dependency sets) in which every dependency names a
registered validator: if the graph is acyclic, `get_execution_order`
returns a list containing every validator exactly once in which every
validator appears strictly after all of its dependencies; and for every
graph (well-formed, but not necessarily dependency-closed) containing a
cycle, `get_execution_order` raises the cyclic-dependency error carrying
the set of unresolved validator names, a set containing every node of the
cycle. -/
theorem c2_amended (g : ValidationGraph) (hwf : g.wf) :
    (g.closed → (∀ c, ¬ isCycle g c) →
      ∃ l, g.get_execution_order = Except.ok l ∧ List.Perm l g.names ∧
        ∀ a ∈ l, ∀ d ∈ g.dependenciesOf a, d ∈ l ∧ l.indexOf d < l.indexOf a) ∧
    (∀ c, isCycle g c →
      ∃ r, g.get_execution_order = Except.error r ∧ ∀ x ∈ c, x ∈ r) := by
  have hO := kahnOrder_OrderOK g hwf
  constructor
  · intro hclosed hacyc
    have hlen : (kahnOrder g).length = g.names.length := by
      by_contra hne
      have hex : ∃ n₀ ∈ g.names, n₀ ∉ kahnOrder g := by
        by_contra hall
        push_neg at hall
        have hsp1 : List.Subperm (kahnOrder g) g.names :=
          List.Nodup.subperm hO.1 hO.2.1
        have hsp2 : List.Subperm g.names (kahnOrder g) :=
          List.Nodup.subperm hwf.1 hall
        exact hne (hsp1.antisymm hsp2).length_eq
      obtain ⟨n₀, hn₀, hn₀r⟩ := hex
      obtain ⟨c, hc⟩ := exists_cycle_of_stuck g
        (kahnOrder_complete_prop g hwf) hclosed hn₀ hn₀r
      exact hacyc c hc
    refine ⟨kahnOrder g, ?_, ?_, ?_⟩
    · unfold ValidationGraph.get_execution_order
      rw [if_pos hlen]
    · exact (List.Nodup.subperm hO.1 hO.2.1).perm_of_length_le
        (le_of_eq hlen.symm)
    · exact orderOK_strict hO
  · intro c hc
    have hdisj := cycle_disjoint_of_orderOK hO hc
    have hcnames : ∀ x ∈ c, x ∈ g.names := by
      intro x hx
      rcases isCycle_succ hc x hx with ⟨y, _, hdep⟩
      exact dependsOn_mem_names hdep
    obtain ⟨x₀, hx₀⟩ := List.exists_mem_of_ne_nil c hc.1
    have hlenne : ¬ (kahnOrder g).length = g.names.length := by
      intro hlen
      have hperm := (List.Nodup.subperm hO.1 hO.2.1).perm_of_length_le
        (le_of_eq hlen.symm)
      exact hdisj x₀ hx₀ (hperm.mem_iff.2 (hcnames x₀ hx₀))
    refine ⟨g.names.filter (fun n => ¬ (kahnOrder g).contains n), ?_, ?_⟩
    · unfold ValidationGraph.get_execution_order
      rw [if_neg hlenne]
    · intro x hx
      rw [List.mem_filter]
      refine ⟨hcnames x hx, ?_⟩
      simpa using hdisj x hx

/-- Witness for `c2_amended`: the concrete three-validator graph of the
spec scenario is well-formed, dependency-closed and acyclic, so its
execution order exists and respects every dependency. -/
theorem c2_amended_witness :
    ∃ l, c1Graph.get_execution_order = Except.ok l ∧
      List.Perm l c1Graph.names ∧
      ∀ a ∈ l, ∀ d ∈ c1Graph.dependenciesOf a, d ∈ l ∧
        l.indexOf d < l.indexOf a :=
  (c2_amended c1Graph (by unfold ValidationGraph.wf; decide)).1
    (by unfold ValidationGraph.closed; decide)
    (acyclic_of_rank c1Graph
      (fun n => if n = "extension" then 0 else if n = "file_size" then 1 else 2)
      (by decide))

section DictLemmas

variable {K V : Type} [BEq K] [LawfulBEq K]

theorem lookup_isSome_iff_mem_keys {m : List (K × V)} {k : K} :
    (m.lookup k).isSome ↔ k ∈ m.map Prod.fst := by
  induction m with
  | nil => simp
  | cons p rest ih =>
    obtain ⟨k0, v0⟩ := p
    rw [List.lookup_cons]
    by_cases h : k = k0
    · subst h
      simp
    · have hb : (k == k0) = false := by simpa using h
      rw [hb]
      simp only [List.map_cons, List.mem_cons]
      rw [ih]
      constructor
      · exact Or.inr
      · rintro (he | hm)
        · exact absurd he h
        · exact hm

theorem mem_keys_dictSet {m : List (K × V)} {k x : K} {v : V} :
    x ∈ (dictSet m k v).map Prod.fst ↔ x = k ∨ x ∈ m.map Prod.fst := by
  induction m with
  | nil => simp [dictSet]
  | cons p rest ih =>
    obtain ⟨k0, v0⟩ := p
    unfold dictSet
    by_cases h : k0 == k
    · rw [if_pos h]
      have he : k0 = k := by simpa using h
      subst he
      simp only [List.map_cons, List.mem_cons]
      tauto
    · rw [if_neg h]
      simp only [List.map_cons, List.mem_cons, ih]
      tauto

theorem keys_dictSet_nodup {m : List (K × V)} {k : K} {v : V}
    (h : (m.map Prod.fst).Nodup) : ((dictSet m k v).map Prod.fst).Nodup := by
  induction m with
  | nil => simp [dictSet]
  | cons p rest ih =>
    obtain ⟨k0, v0⟩ := p
    rw [List.map_cons, List.nodup_cons] at h
    unfold dictSet
    by_cases hb : k0 == k
    · rw [if_pos hb]
      rw [List.map_cons, List.nodup_cons]
      refine ⟨?_, h.2⟩
      have he : k0 = k := by simpa using hb
      rw [← he]
      exact h.1
    · rw [if_neg hb]
      rw [List.map_cons, List.nodup_cons]
      refine ⟨?_, ih h.2⟩
      intro hmem
      rw [mem_keys_dictSet] at hmem
      rcases hmem with he | hm
      · exact absurd he (by simpa using hb)
      · exact h.1 hm

theorem keys_dictDel_nodup {m : List (K × V)} {k : K}
    (h : (m.map Prod.fst).Nodup) : ((dictDel m k).map Prod.fst).Nodup := by
  unfold dictDel
  exact List.Nodup.sublist ((List.filter_sublist _).map _) h

theorem mem_keys_dictDel {m : List (K × V)} {k x : K} :
    x ∈ (dictDel m k).map Prod.fst ↔ x ∈ m.map Prod.fst ∧ x ≠ k := by
  unfold dictDel
  constructor
  · intro h
    rcases List.mem_map.1 h with ⟨p, hp, rfl⟩
    rw [List.mem_filter] at hp
    refine ⟨List.mem_map_of_mem _ hp.1, ?_⟩
    simpa using hp.2
  · rintro ⟨h, hne⟩
    rcases List.mem_map.1 h with ⟨p, hp, rfl⟩
    refine List.mem_map_of_mem _ ?_
    rw [List.mem_filter]
    exact ⟨hp, by simpa using hne⟩

theorem lookup_dictSet_self {m : List (K × V)} {k : K} {v : V} :
    (dictSet m k v).lookup k = some v := by
  induction m with
  | nil => simp [dictSet, List.lookup_cons]
  | cons p rest ih =>
    obtain ⟨k0, v0⟩ := p
    unfold dictSet
    by_cases hb : k0 == k
    · rw [if_pos hb, List.lookup_cons]
      simp
    · rw [if_neg hb, List.lookup_cons]
      have : (k == k0) = false := by
        rw [beq_eq_false_iff_ne]
        intro he
        exact (by simpa using hb : ¬ k0 = k) he.symm
      rw [this]
      exact ih

theorem mem_dictSet {m : List (K × V)} {k x : K} {v w : V} :
    (x, w) ∈ dictSet m k v → (x, w) = (k, v) ∨ (x, w) ∈ m := by
  induction m with
  | nil => simp [dictSet]
  | cons p rest ih =>
    obtain ⟨k0, v0⟩ := p
    unfold dictSet
    by_cases hb : k0 == k
    · rw [if_pos hb]
      intro h
      rcases List.mem_cons.1 h with he | hm
      · exact Or.inl he
      · exact Or.inr (List.mem_cons_of_mem _ hm)
    · rw [if_neg hb]
      intro h
      rcases List.mem_cons.1 h with he | hm
      · exact Or.inr (he ▸ List.mem_cons_self _ _)
      · rcases ih hm with he2 | hm2
        · exact Or.inl he2
        · exact Or.inr (List.mem_cons_of_mem _ hm2)

theorem mem_dictDel {m : List (K × V)} {k : K} {p : K × V}
    (h : p ∈ dictDel m k) : p ∈ m := by
  unfold dictDel at h
  exact List.mem_of_mem_filter h

theorem lookup_mem {m : List (K × V)} {k : K} {e : V}
    (h : m.lookup k = some e) : (k, e) ∈ m := by
  induction m with
  | nil => simp [List.lookup] at h
  | cons p rest ih =>
    obtain ⟨k0, v0⟩ := p
    rw [List.lookup_cons] at h
    cases hb : k == k0 with
    | true =>
      rw [hb] at h
      simp only at h
      have he : k = k0 := by simpa using hb
      rw [he]
      exact (Option.some_inj.1 h) ▸ List.mem_cons_self _ _
    | false =>
      rw [hb] at h
      simp only at h
      exact List.mem_cons_of_mem _ (ih h)

end DictLemmas

section CacheRunLemmas

variable {K V : Type} [BEq K] [LawfulBEq K]

theorem lruSync_set_touch (s : SmartCache K V) (k : K) (e : CacheEntry V)
    (h : lruSync s) :
    lruSync { s with cache := dictSet s.cache k e,
                     access_order :=
                       (if s.access_order.contains k then s.access_order.erase k
                        else s.access_order) ++ [k] } := by
  obtain ⟨h1, h2, h3⟩ := h
  refine ⟨?_, ?_, ?_⟩
  · show ((dictSet s.cache k e).map Prod.fst).Nodup
    exact keys_dictSet_nodup h1
  · show ((if s.access_order.contains k then s.access_order.erase k
      else s.access_order) ++ [k]).Nodup
    exact auxUpdate_nodup h2 k
  · intro x
    show x ∈ (if s.access_order.contains k then s.access_order.erase k
        else s.access_order) ++ [k] ↔
      x ∈ (dictSet s.cache k e).map Prod.fst
    rw [mem_auxUpdate h2 k x, mem_keys_dictSet, h3 x]

theorem lruSync_removeKey (s : SmartCache K V) (k : K) (h : lruSync s) :
    lruSync (s.removeKey k) := by
  obtain ⟨h1, h2, h3⟩ := h
  unfold SmartCache.removeKey
  split
  · exact ⟨h1, h2, h3⟩
  · rename_i hl
    have hsome : (s.cache.lookup k).isSome := by
      cases hcase : s.cache.lookup k with
      | none => exact absurd (by rw [hcase]; rfl) hl
      | some e => rfl
    have hk : k ∈ s.cache.map Prod.fst := lookup_isSome_iff_mem_keys.1 hsome
    have hko : k ∈ s.access_order := (h3 k).2 hk
    refine ⟨?_, ?_, ?_⟩
    · show ((dictDel s.cache k).map Prod.fst).Nodup
      exact keys_dictDel_nodup h1
    · show (if s.access_order.contains k then s.access_order.erase k
        else s.access_order).Nodup
      exact auxErase_nodup h2 k
    · intro x
      show x ∈ (if s.access_order.contains k then s.access_order.erase k
          else s.access_order) ↔
        x ∈ (dictDel s.cache k).map Prod.fst
      rw [mem_auxErase h2 k x hko, mem_keys_dictDel, h3 x]

theorem lruSync_evictOne (s : SmartCache K V)
    (hp : s.policy = CachePolicy.lru) (h : lruSync s) : lruSync s.evictOne := by
  obtain ⟨h1, h2, h3⟩ := h
  unfold SmartCache.evictOne
  split
  · exact ⟨h1, h2, h3⟩
  · simp only [hp]
    cases ho : s.access_order with
    | nil => exact ⟨h1, h2, h3⟩
    | cons oldest rest =>
      have h2x : (oldest :: rest).Nodup := by rw [← ho]; exact h2
      refine ⟨?_, ?_, ?_⟩
      · show ((dictDel s.cache oldest).map Prod.fst).Nodup
        exact keys_dictDel_nodup h1
      · show rest.Nodup
        exact (List.nodup_cons.1 h2x).2
      · intro x
        show x ∈ rest ↔ x ∈ (dictDel s.cache oldest).map Prod.fst
        rw [mem_keys_dictDel]
        obtain ⟨hno, hnd⟩ := List.nodup_cons.1 h2x
        constructor
        · intro hx
          refine ⟨(h3 x).1 ?_, ?_⟩
          · rw [ho]
            exact List.mem_cons_of_mem _ hx
          · intro hxe
            exact hno (hxe ▸ hx)
        · rintro ⟨hxk, hne⟩
          have hxo : x ∈ s.access_order := (h3 x).2 hxk
          rw [ho, List.mem_cons] at hxo
          rcases hxo with he | hx
          · exact absurd he hne
          · exact hx

theorem lruSync_get (s : SmartCache K V) (k : K) (now : Int)
    (hp : s.policy = CachePolicy.lru) (h : lruSync s) :
    lruSync (s.get k now).2 := by
  unfold SmartCache.get
  split
  · exact h
  · rename_i entry heq
    split
    · exact lruSync_removeKey s k h
    · simp only [hp]
      exact lruSync_set_touch s k ((entry.access now).2) h

theorem lruSync_put (s : SmartCache K V) (k : K) (v : V) (now : Int)
    (hp : s.policy = CachePolicy.lru) (h : lruSync s) :
    lruSync (s.put k v now) := by
  have h1 : lruSync (if s.cache.length ≥ s.max_size && (s.cache.lookup k).isNone
      then s.evictOne else s) := by
    split
    · exact lruSync_evictOne s hp h
    · exact h
  unfold SmartCache.put
  simp only [hp]
  exact lruSync_set_touch _ k ⟨v, now, 0, now⟩ h1

theorem lruSync_clear (s : SmartCache K V) : lruSync s.clear :=
  ⟨List.nodup_nil, List.nodup_nil, fun _ => Iff.rfl⟩

theorem lruSync_applyOp (s : SmartCache K V) (op : CacheOp K V)
    (hp : s.policy = CachePolicy.lru) (h : lruSync s) :
    lruSync (s.applyOp op) := by
  cases op with
  | get k now => exact lruSync_get s k now hp h
  | put k v now => exact lruSync_put s k v now hp h
  | clear => exact lruSync_clear s

theorem policy_run (s : SmartCache K V) (ops : List (CacheOp K V)) :
    (s.run ops).policy = s.policy := by
  induction ops generalizing s with
  | nil => rfl
  | cons op rest ih => exact (ih (s.applyOp op)).trans (policy_applyOp s op)

theorem lruSync_run (s : SmartCache K V) (ops : List (CacheOp K V))
    (hp : s.policy = CachePolicy.lru) (h : lruSync s) :
    lruSync (s.run ops) := by
  induction ops generalizing s with
  | nil => exact h
  | cons op rest ih =>
    exact ih (s.applyOp op) ((policy_applyOp s op).trans hp)
      (lruSync_applyOp s op hp h)


theorem fifoSync_set_touch (s : SmartCache K V) (k : K) (e : CacheEntry V)
    (h : fifoSync s) :
    fifoSync { s with cache := dictSet s.cache k e,
                      fifo_order :=
                        (if s.fifo_order.contains k then s.fifo_order.erase k
                         else s.fifo_order) ++ [k] } := by
  obtain ⟨h1, h2, h3⟩ := h
  refine ⟨?_, ?_, ?_⟩
  · show ((dictSet s.cache k e).map Prod.fst).Nodup
    exact keys_dictSet_nodup h1
  · show ((if s.fifo_order.contains k then s.fifo_order.erase k
      else s.fifo_order) ++ [k]).Nodup
    exact auxUpdate_nodup h2 k
  · intro x
    show x ∈ (if s.fifo_order.contains k then s.fifo_order.erase k
        else s.fifo_order) ++ [k] ↔
      x ∈ (dictSet s.cache k e).map Prod.fst
    rw [mem_auxUpdate h2 k x, mem_keys_dictSet, h3 x]

theorem fifoSync_removeKey (s : SmartCache K V) (k : K) (h : fifoSync s) :
    fifoSync (s.removeKey k) := by
  obtain ⟨h1, h2, h3⟩ := h
  unfold SmartCache.removeKey
  split
  · exact ⟨h1, h2, h3⟩
  · rename_i hl
    have hsome : (s.cache.lookup k).isSome := by
      cases hcase : s.cache.lookup k with
      | none => exact absurd (by rw [hcase]; rfl) hl
      | some e => rfl
    have hk : k ∈ s.cache.map Prod.fst := lookup_isSome_iff_mem_keys.1 hsome
    have hko : k ∈ s.fifo_order := (h3 k).2 hk
    refine ⟨?_, ?_, ?_⟩
    · show ((dictDel s.cache k).map Prod.fst).Nodup
      exact keys_dictDel_nodup h1
    · show (if s.fifo_order.contains k then s.fifo_order.erase k
        else s.fifo_order).Nodup
      exact auxErase_nodup h2 k
    · intro x
      show x ∈ (if s.fifo_order.contains k then s.fifo_order.erase k
          else s.fifo_order) ↔
        x ∈ (dictDel s.cache k).map Prod.fst
      rw [mem_auxErase h2 k x hko, mem_keys_dictDel, h3 x]

theorem fifoSync_evictOne (s : SmartCache K V)
    (hp : s.policy = CachePolicy.fifo) (h : fifoSync s) :
    fifoSync s.evictOne := by
  obtain ⟨h1, h2, h3⟩ := h
  unfold SmartCache.evictOne
  split
  · exact ⟨h1, h2, h3⟩
  · simp only [hp]
    cases ho : s.fifo_order with
    | nil => exact ⟨h1, h2, h3⟩
    | cons oldest rest =>
      have h2x : (oldest :: rest).Nodup := by rw [← ho]; exact h2
      have hmem : oldest ∈ s.fifo_order := by
        rw [ho]
        exact List.mem_cons_self _ _
      have hsome : (s.cache.lookup oldest).isSome :=
        lookup_isSome_iff_mem_keys.2 ((h3 oldest).1 hmem)
      refine ⟨?_, ?_, ?_⟩
      · show (((if (s.cache.lookup oldest).isSome then dictDel s.cache oldest
          else s.cache)).map Prod.fst).Nodup
        rw [if_pos hsome]
        exact keys_dictDel_nodup h1
      · show rest.Nodup
        exact (List.nodup_cons.1 h2x).2
      · intro x
        show x ∈ rest ↔
          x ∈ ((if (s.cache.lookup oldest).isSome then dictDel s.cache oldest
            else s.cache)).map Prod.fst
        rw [if_pos hsome, mem_keys_dictDel]
        obtain ⟨hno, hnd⟩ := List.nodup_cons.1 h2x
        constructor
        · intro hx
          refine ⟨(h3 x).1 ?_, ?_⟩
          · rw [ho]
            exact List.mem_cons_of_mem _ hx
          · intro hxe
            exact hno (hxe ▸ hx)
        · rintro ⟨hxk, hne⟩
          have hxo : x ∈ s.fifo_order := (h3 x).2 hxk
          rw [ho, List.mem_cons] at hxo
          rcases hxo with he | hx
          · exact absurd he hne
          · exact hx

theorem fifoSync_get (s : SmartCache K V) (k : K) (now : Int)
    (hp : s.policy = CachePolicy.fifo) (h : fifoSync s) :
    fifoSync (s.get k now).2 := by
  unfold SmartCache.get
  split
  · exact h
  · rename_i entry heq
    split
    · exact fifoSync_removeKey s k h
    · simp only [hp]
      obtain ⟨h1, h2, h3⟩ := h
      have hk : k ∈ s.cache.map Prod.fst := by
        rw [← lookup_isSome_iff_mem_keys, heq]
        rfl
      refine ⟨?_, ?_, ?_⟩
      · show ((dictSet s.cache k ((entry.access now).2)).map Prod.fst).Nodup
        exact keys_dictSet_nodup h1
      · show s.fifo_order.Nodup
        exact h2
      · intro x
        show x ∈ s.fifo_order ↔
          x ∈ (dictSet s.cache k ((entry.access now).2)).map Prod.fst
        rw [mem_keys_dictSet, h3 x]
        constructor
        · exact Or.inr
        · rintro (he | hm)
          · rw [he]
            exact hk
          · exact hm

theorem fifoSync_put (s : SmartCache K V) (k : K) (v : V) (now : Int)
    (hp : s.policy = CachePolicy.fifo) (h : fifoSync s) :
    fifoSync (s.put k v now) := by
  have h1 : fifoSync (if s.cache.length ≥ s.max_size && (s.cache.lookup k).isNone
      then s.evictOne else s) := by
    split
    · exact fifoSync_evictOne s hp h
    · exact h
  unfold SmartCache.put
  simp only [hp]
  exact fifoSync_set_touch _ k ⟨v, now, 0, now⟩ h1

theorem fifoSync_clear (s : SmartCache K V) : fifoSync s.clear :=
  ⟨List.nodup_nil, List.nodup_nil, fun _ => Iff.rfl⟩

theorem fifoSync_applyOp (s : SmartCache K V) (op : CacheOp K V)
    (hp : s.policy = CachePolicy.fifo) (h : fifoSync s) :
    fifoSync (s.applyOp op) := by
  cases op with
  | get k now => exact fifoSync_get s k now hp h
  | put k v now => exact fifoSync_put s k v now hp h
  | clear => exact fifoSync_clear s

theorem fifoSync_run (s : SmartCache K V) (ops : List (CacheOp K V))
    (hp : s.policy = CachePolicy.fifo) (h : fifoSync s) :
    fifoSync (s.run ops) := by
  induction ops generalizing s with
  | nil => exact h
  | cons op rest ih =>
    exact ih (s.applyOp op) ((policy_applyOp s op).trans hp)
      (fifoSync_applyOp s op hp h)

theorem auxSize_lru {s : SmartCache K V} (hp : s.policy = CachePolicy.lru)
    (h : lruSync s) : auxSize s = s.cache.length := by
  obtain ⟨h1, h2, h3⟩ := h
  unfold auxSize
  simp only [hp]
  exact (length_eq_of_nodup_mem_iff h2 h1 h3).trans (List.length_map _ _)

theorem auxSize_fifo {s : SmartCache K V} (hp : s.policy = CachePolicy.fifo)
    (h : fifoSync s) : auxSize s = s.cache.length := by
  obtain ⟨h1, h2, h3⟩ := h
  unfold auxSize
  simp only [hp]
  exact (length_eq_of_nodup_mem_iff h2 h1 h3).trans (List.length_map _ _)


theorem heapLe_fst_le {a b : Nat × Nat × K} (h : heapLe a b = true) :
    a.1 ≤ b.1 := by
  unfold heapLe at h
  simp only [Bool.or_eq_true, Bool.and_eq_true, decide_eq_true_eq,
    beq_iff_eq] at h
  rcases h with h | ⟨h, _⟩
  · exact Nat.le_of_lt h
  · exact Nat.le_of_eq h

theorem lfuEvictLoop_evicts_min :
    ∀ (h : List (Nat × Nat × K)) (cache : List (K × CacheEntry V))
      (stale : List K),
    h.Pairwise (fun a b => heapLe a b = true) →
    ∀ (x : K) (ex : CacheEntry V) (cntx : Nat),
    cache.lookup x = some ex → ¬ x ∈ stale →
    (ex.access_count, cntx, x) ∈ h →
    ∃ kv ev, cache.lookup kv = some ev ∧
      (lfuEvictLoop cache stale h).1 = dictDel cache kv ∧
      ∀ (y : K) (ey : CacheEntry V) (cnty : Nat), cache.lookup y = some ey →
        ¬ y ∈ stale → (ey.access_count, cnty, y) ∈ h →
        ev.access_count ≤ ey.access_count := by
  intro h
  induction h with
  | nil =>
    intro cache stale hsort x ex cntx hx hxs hxt
    exact absurd hxt (List.not_mem_nil _)
  | cons t rest ih =>
    intro cache stale hsort x ex cntx hx hxs hxt
    obtain ⟨ac, cnt0, k⟩ := t
    rw [List.pairwise_cons] at hsort
    obtain ⟨hhead, hrest⟩ := hsort
    by_cases hst : stale.contains k = true
    · have hkst : k ∈ stale := by simpa using hst
      have hxk : x ≠ k := fun he => hxs (he ▸ hkst)
      have hxt2 : (ex.access_count, cntx, x) ∈ rest := by
        rcases List.mem_cons.1 hxt with he | hm
        · exact absurd (congrArg (fun p => p.2.2) he) hxk
        · exact hm
      have hxs2 : ¬ x ∈ stale.erase k := fun hm => hxs (List.mem_of_mem_erase hm)
      obtain ⟨kv, ev, h1, h2, h3⟩ :=
        ih cache (stale.erase k) hrest x ex cntx hx hxs2 hxt2
      have hstep : lfuEvictLoop cache stale ((ac, cnt0, k) :: rest) =
          lfuEvictLoop cache (stale.erase k) rest := by
        simp only [lfuEvictLoop]
        rw [if_pos hst]
      refine ⟨kv, ev, h1, by rw [hstep]; exact h2, ?_⟩
      intro y ey cnty hy hys hyt
      have hyt2 : (ey.access_count, cnty, y) ∈ rest := by
        rcases List.mem_cons.1 hyt with he | hm
        · have hyk : y = k := congrArg (fun p => p.2.2) he
          exact absurd (hyk ▸ hkst) hys
        · exact hm
      exact h3 y ey cnty hy (fun hm => hys (List.mem_of_mem_erase hm)) hyt2
    · cases hlk : cache.lookup k with
      | none =>
        have hxk : x ≠ k := by
          intro he
          rw [he, hlk] at hx
          exact Option.noConfusion hx
        have hxt2 : (ex.access_count, cntx, x) ∈ rest := by
          rcases List.mem_cons.1 hxt with he | hm
          · exact absurd (congrArg (fun p => p.2.2) he) hxk
          · exact hm
        obtain ⟨kv, ev, h1, h2, h3⟩ :=
          ih cache stale hrest x ex cntx hx hxs hxt2
        have hstep : lfuEvictLoop cache stale ((ac, cnt0, k) :: rest) =
            lfuEvictLoop cache stale rest := by
          simp only [lfuEvictLoop]
          rw [if_neg hst]
          simp only [hlk]
        refine ⟨kv, ev, h1, by rw [hstep]; exact h2, ?_⟩
        intro y ey cnty hy hys hyt
        have hyt2 : (ey.access_count, cnty, y) ∈ rest := by
          rcases List.mem_cons.1 hyt with he | hm
          · have hyk : y = k := congrArg (fun p => p.2.2) he
            rw [hyk, hlk] at hy
            exact Option.noConfusion hy
          · exact hm
        exact h3 y ey cnty hy hys hyt2
      | some e =>
        by_cases hce : e.access_count = ac
        · have hstep : lfuEvictLoop cache stale ((ac, cnt0, k) :: rest) =
              (dictDel cache k, stale.erase k, rest) := by
            simp only [lfuEvictLoop]
            rw [if_neg hst]
            simp only [hlk]
            rw [if_pos hce]
          refine ⟨k, e, hlk, by rw [hstep], ?_⟩
          intro y ey cnty hy hys hyt
          rcases List.mem_cons.1 hyt with he | hm
          · have hcy : ey.access_count = ac := congrArg (fun p => p.1) he
            rw [hce, hcy]
          · have hle := hhead _ hm
            have hfst := heapLe_fst_le hle
            rw [hce]
            exact hfst
        · have hxt2 : (ex.access_count, cntx, x) ∈ rest := by
            rcases List.mem_cons.1 hxt with he | hm
            · have hxeq : x = k := congrArg (fun p => p.2.2) he
              have hceq : ex.access_count = ac := congrArg (fun p => p.1) he
              rw [hxeq, hlk] at hx
              have hee : e = ex := Option.some_inj.1 hx
              exact absurd (by rw [hee, hceq]) hce
            · exact hm
          obtain ⟨kv, ev, h1, h2, h3⟩ :=
            ih cache stale hrest x ex cntx hx hxs hxt2
          have hstep : lfuEvictLoop cache stale ((ac, cnt0, k) :: rest) =
              lfuEvictLoop cache stale rest := by
            simp only [lfuEvictLoop]
            rw [if_neg hst]
            simp only [hlk]
            rw [if_neg hce]
          refine ⟨kv, ev, h1, by rw [hstep]; exact h2, ?_⟩
          intro y ey cnty hy hys hyt
          have hyt2 : (ey.access_count, cnty, y) ∈ rest := by
            rcases List.mem_cons.1 hyt with he | hm
            · have hyeq : y = k := congrArg (fun p => p.2.2) he
              have hcy : ey.access_count = ac := congrArg (fun p => p.1) he
              rw [hyeq, hlk] at hy
              have hee : e = ey := Option.some_inj.1 hy
              exact absurd (by rw [hee, hcy]) hce
            · exact hm
          exact h3 y ey cnty hy hys hyt2


theorem get_none (s : SmartCache K V) (k : K) (now : Int)
    (h : s.cache.lookup k = none) : s.get k now = (none, s) := by
  unfold SmartCache.get
  rw [h]

theorem get_result (s : SmartCache K V) (k : K) (now : Int) :
    (s.get k now).1 = none ∨
    ∃ e, s.cache.lookup k = some e ∧ (s.get k now).1 = some e.value := by
  unfold SmartCache.get
  split
  · exact Or.inl rfl
  · rename_i entry heq
    split
    · exact Or.inl rfl
    · refine Or.inr ⟨entry, heq, ?_⟩
      cases hp : s.policy <;> simp only [hp] <;> rfl
  -- the per-policy hit arms all return the entry value

theorem removeKey_cache_sub (s : SmartCache K V) (k : K) {p : K × CacheEntry V}
    (hp : p ∈ (s.removeKey k).cache) : p ∈ s.cache := by
  unfold SmartCache.removeKey at hp
  split at hp
  · exact hp
  · exact mem_dictDel hp

theorem lfuEvictLoop_cache_sub :
    ∀ (h : List (Nat × Nat × K)) (cache : List (K × CacheEntry V))
      (stale : List K) {p : K × CacheEntry V},
    p ∈ (lfuEvictLoop cache stale h).1 → p ∈ cache := by
  intro h
  induction h with
  | nil =>
    intro cache stale p hp
    exact hp
  | cons t rest ih =>
    intro cache stale p hp
    obtain ⟨ac, cnt0, k⟩ := t
    simp only [lfuEvictLoop] at hp
    split at hp
    · exact ih cache (stale.erase k) hp
    · split at hp
      · split at hp
        · exact mem_dictDel hp
        · exact ih cache stale hp
      · exact ih cache stale hp

theorem evictOne_cache_sub (s : SmartCache K V) {p : K × CacheEntry V}
    (hp : p ∈ s.evictOne.cache) : p ∈ s.cache := by
  unfold SmartCache.evictOne at hp
  split at hp
  · exact hp
  · split at hp
    · split at hp
      · exact hp
      · exact mem_dictDel hp
    · exact lfuEvictLoop_cache_sub s.lfu_heap s.cache s.lfu_stale_keys hp
    · split at hp
      · exact hp
      · split at hp
        · exact mem_dictDel hp
        · exact hp
    · exact hp

theorem put_cache_eq (s : SmartCache K V) (k : K) (v : V) (now : Int) :
    (s.put k v now).cache =
      dictSet (if s.cache.length ≥ s.max_size && (s.cache.lookup k).isNone
        then s.evictOne else s).cache k ⟨v, now, 0, now⟩ := by
  cases hp : s.policy <;> simp only [SmartCache.put, hp]

theorem memoGood_clear {A T : Type} {f : A → Option T}
    (s : SmartCache A (Option T)) : memoGood f s.clear :=
  fun _ hp => absurd hp (List.not_mem_nil _)

theorem memoGood_removeKey {A T : Type} [BEq A] [LawfulBEq A]
    {f : A → Option T} {s : SmartCache A (Option T)} (h : memoGood f s)
    (k : A) : memoGood f (s.removeKey k) :=
  fun p hp => h p (removeKey_cache_sub s k hp)

theorem memoGood_evictOne {A T : Type} [BEq A] [LawfulBEq A]
    {f : A → Option T} {s : SmartCache A (Option T)} (h : memoGood f s) :
    memoGood f s.evictOne :=
  fun p hp => h p (evictOne_cache_sub s hp)

theorem memoGood_get {A T : Type} [BEq A] [LawfulBEq A] {f : A → Option T}
    {s : SmartCache A (Option T)} (h : memoGood f s) (k : A) (now : Int) :
    memoGood f (s.get k now).2 := by
  unfold SmartCache.get
  split
  · exact h
  · rename_i entry heq
    split
    · exact memoGood_removeKey h k
    · have hent : entry.value = f k := h (k, entry) (lookup_mem heq)
      have hcore : ∀ e2 : CacheEntry (Option T), e2.value = f k →
          memoGood f { s with cache := dictSet s.cache k e2 } := by
        intro e2 he2 p hp2
        obtain ⟨x, w⟩ := p
        rcases mem_dictSet hp2 with he | hm
        · have hx : x = k := congrArg Prod.fst he
          have hw : w = e2 := congrArg Prod.snd he
          show w.value = f x
          rw [hw, hx]
          exact he2
        · exact h (x, w) hm
      cases hpol : s.policy <;> exact hcore _ hent

theorem memoGood_put_self {A T : Type} [BEq A] [LawfulBEq A]
    {f : A → Option T} {s : SmartCache A (Option T)} (h : memoGood f s)
    (k : A) (now : Int) : memoGood f (s.put k (f k) now) := by
  intro p hp
  rw [put_cache_eq] at hp
  obtain ⟨x, w⟩ := p
  rcases mem_dictSet hp with he | hm
  · have hx : x = k := congrArg Prod.fst he
    have hw : w = ⟨f k, now, 0, now⟩ := congrArg Prod.snd he
    show w.value = f x
    rw [hw, hx]
  · have hgood : memoGood f
        (if s.cache.length ≥ s.max_size && (s.cache.lookup k).isNone
          then s.evictOne else s) := by
      split
      · exact memoGood_evictOne h
      · exact h
    exact hgood (x, w) hm

theorem memoizeCall_result {A T : Type} [BEq A] [LawfulBEq A]
    {f : A → Option T} {s : SmartCache A (Option T)} (h : memoGood f s)
    (a : A) (now : Int) : (memoizeCall f s a now).1 = f a := by
  rcases get_result s a now with hg | ⟨e, hlk, hg⟩
  · have hstep : memoizeCall f s a now =
        (f a, ((s.get a now).2).put a (f a) now) := by
      simp only [memoizeCall, hg]
    rw [hstep]
  · cases he : e.value with
    | some t =>
      have hg2 : (s.get a now).1 = some (some t) := by rw [hg, he]
      have hstep : memoizeCall f s a now = (some t, (s.get a now).2) := by
        simp only [memoizeCall, hg2]
      rw [hstep]
      show some t = f a
      rw [← he]
      exact h (a, e) (lookup_mem hlk)
    | none =>
      have hg2 : (s.get a now).1 = some none := by rw [hg, he]
      have hstep : memoizeCall f s a now =
          (f a, ((s.get a now).2).put a (f a) now) := by
        simp only [memoizeCall, hg2]
      rw [hstep]

theorem memoGood_memoizeCall {A T : Type} [BEq A] [LawfulBEq A]
    {f : A → Option T} {s : SmartCache A (Option T)} (h : memoGood f s)
    (a : A) (now : Int) : memoGood f (memoizeCall f s a now).2 := by
  unfold memoizeCall
  split
  · exact memoGood_get h a now
  · exact memoGood_put_self (memoGood_get h a now) a now

theorem memoGood_memoRun {A T : Type} [BEq A] [LawfulBEq A]
    (f : A → Option T) (s : SmartCache A (Option T)) (ops : List (MemoOp A))
    (h : memoGood f s) : memoGood f (memoRun f s ops) := by
  induction ops generalizing s with
  | nil => exact h
  | cons op rest ih =>
    cases op with
    | call a now => exact ih _ (memoGood_memoizeCall h a now)
    | clear => exact ih _ (memoGood_clear s)


theorem lfuSurvives_zero {cache : List (K × CacheEntry V)} {stale : List K}
    {t0 : Nat × Nat × K} {rest : List (Nat × Nat × K)} :
    lfuSurvives cache stale (t0 :: rest) 0 ↔
      (∃ e, cache.lookup t0.2.2 = some e ∧ e.access_count = t0.1) ∧
        ¬ t0.2.2 ∈ stale := by
  unfold lfuSurvives
  constructor
  · rintro ⟨t, hget, hlive, hflag⟩
    rw [List.get?_cons_zero] at hget
    have ht : t0 = t := Option.some_inj.1 hget
    cases ht
    refine ⟨hlive, fun hmem => hflag ⟨hmem, ?_⟩⟩
    intro j hj u hu
    exact absurd hj (Nat.not_lt_zero j)
  · rintro ⟨hlive, hflag⟩
    refine ⟨t0, List.get?_cons_zero, hlive, ?_⟩
    rintro ⟨hmem, _⟩
    exact hflag hmem

theorem lfuSurvives_succ_iff (cache : List (K × CacheEntry V))
    {stale staleT : List K} (t0 : Nat × Nat × K)
    (rest : List (Nat × Nat × K)) (i : Nat)
    (hmem : ∀ x : K, x ≠ t0.2.2 → (x ∈ stale ↔ x ∈ staleT))
    (hnotk : ¬ t0.2.2 ∈ staleT) :
    lfuSurvives cache stale (t0 :: rest) (i + 1) ↔
      lfuSurvives cache staleT rest i := by
  unfold lfuSurvives
  constructor
  · rintro ⟨t, hget, hlive, hflag⟩
    rw [List.get?_cons_succ] at hget
    refine ⟨t, hget, hlive, ?_⟩
    rintro ⟨hmem2, hfo⟩
    by_cases hk : t.2.2 = t0.2.2
    · exact hnotk (hk ▸ hmem2)
    · refine hflag ⟨(hmem t.2.2 hk).2 hmem2, ?_⟩
      intro j hj u hu
      cases j with
      | zero =>
        rw [List.get?_cons_zero] at hu
        have hu0 : t0 = u := Option.some_inj.1 hu
        rw [← hu0]
        exact fun hh => hk hh.symm
      | succ jp =>
        rw [List.get?_cons_succ] at hu
        exact hfo jp (Nat.lt_of_succ_lt_succ hj) u hu
  · rintro ⟨t, hget, hlive, hflag⟩
    refine ⟨t, by rw [List.get?_cons_succ]; exact hget, hlive, ?_⟩
    rintro ⟨hmem2, hfo⟩
    by_cases hk : t.2.2 = t0.2.2
    · have h0 := hfo 0 (Nat.succ_pos i) t0 List.get?_cons_zero
      exact h0 hk.symm
    · refine hflag ⟨(hmem t.2.2 hk).1 hmem2, ?_⟩
      intro j hj u hu
      exact hfo (j + 1) (Nat.succ_lt_succ hj) u
        (by rw [List.get?_cons_succ]; exact hu)

theorem lfuEvictLoop_spec :
    ∀ (h : List (Nat × Nat × K)) (cache : List (K × CacheEntry V))
      (stale : List K), stale.Nodup →
    ((∀ i, ¬ lfuSurvives cache stale h i) →
      (lfuEvictLoop cache stale h).1 = cache) ∧
    (∀ i t, lfuSurvives cache stale h i →
      (∀ j, j < i → ¬ lfuSurvives cache stale h j) →
      h.get? i = some t →
      (lfuEvictLoop cache stale h).1 = dictDel cache t.2.2 ∧
        ∃ e, cache.lookup t.2.2 = some e ∧ e.access_count = t.1) := by
  intro h
  induction h with
  | nil =>
    intro cache stale hnd
    refine ⟨fun _ => rfl, ?_⟩
    intro i t _ _ hget
    rw [List.get?_nil] at hget
    exact Option.noConfusion hget
  | cons t0 rest ih =>
    intro cache stale hnd
    obtain ⟨ac, cnt0, k⟩ := t0
    by_cases hst : stale.contains k = true
    · -- flag-consuming head: skip and erase the flag
      have hk : k ∈ stale := by simpa using hst
      have hmem : ∀ x : K, x ≠ (ac, cnt0, k).2.2 →
          (x ∈ stale ↔ x ∈ stale.erase k) := by
        intro x hx
        rw [hnd.mem_erase_iff]
        exact ⟨fun hm => ⟨hx, hm⟩, fun hm => hm.2⟩
      have hnotk : ¬ (ac, cnt0, k).2.2 ∈ stale.erase k := by
        intro hm
        exact ((hnd.mem_erase_iff).1 hm).1 rfl
      have hhead0 : ¬ lfuSurvives cache stale ((ac, cnt0, k) :: rest) 0 := by
        intro hs0
        exact (lfuSurvives_zero.1 hs0).2 hk
      have hstep : lfuEvictLoop cache stale ((ac, cnt0, k) :: rest) =
          lfuEvictLoop cache (stale.erase k) rest := by
        simp only [lfuEvictLoop]
        rw [if_pos hst]
      obtain ⟨ih1, ih2⟩ := ih cache (stale.erase k) (List.Nodup.erase k hnd)
      constructor
      · intro hno
        rw [hstep]
        refine ih1 ?_
        intro i hsi
        exact hno (i + 1)
          ((lfuSurvives_succ_iff cache _ rest i hmem hnotk).2 hsi)
      · intro i t hs hleast hget
        cases i with
        | zero => exact absurd hs hhead0
        | succ ip =>
          have hs2 := (lfuSurvives_succ_iff cache _ rest ip hmem hnotk).1 hs
          have hleast2 : ∀ j, j < ip →
              ¬ lfuSurvives cache (stale.erase k) rest j := by
            intro j hj hsj
            exact hleast (j + 1) (Nat.succ_lt_succ hj)
              ((lfuSurvives_succ_iff cache _ rest j hmem hnotk).2 hsj)
          have hget2 : rest.get? ip = some t := by
            rw [List.get?_cons_succ] at hget
            exact hget
          obtain ⟨hres, he⟩ := ih2 ip t hs2 hleast2 hget2
          exact ⟨by rw [hstep]; exact hres, he⟩
    · have hknot : ¬ k ∈ stale := by simpa using hst
      have hmem : ∀ x : K, x ≠ (ac, cnt0, k).2.2 →
          (x ∈ stale ↔ x ∈ stale) := fun _ _ => Iff.rfl
      cases hlk : cache.lookup k with
      | none =>
        have hhead0 : ¬ lfuSurvives cache stale ((ac, cnt0, k) :: rest) 0 := by
          intro hs0
          obtain ⟨⟨e, hlk2, _⟩, _⟩ := lfuSurvives_zero.1 hs0
          rw [hlk] at hlk2
          exact Option.noConfusion hlk2
        have hstep : lfuEvictLoop cache stale ((ac, cnt0, k) :: rest) =
            lfuEvictLoop cache stale rest := by
          simp only [lfuEvictLoop]
          rw [if_neg hst]
          simp only [hlk]
        obtain ⟨ih1, ih2⟩ := ih cache stale hnd
        constructor
        · intro hno
          rw [hstep]
          refine ih1 ?_
          intro i hsi
          exact hno (i + 1)
            ((lfuSurvives_succ_iff cache _ rest i hmem hknot).2 hsi)
        · intro i t hs hleast hget
          cases i with
          | zero => exact absurd hs hhead0
          | succ ip =>
            have hs2 := (lfuSurvives_succ_iff cache _ rest ip hmem hknot).1 hs
            have hleast2 : ∀ j, j < ip →
                ¬ lfuSurvives cache stale rest j := by
              intro j hj hsj
              exact hleast (j + 1) (Nat.succ_lt_succ hj)
                ((lfuSurvives_succ_iff cache _ rest j hmem hknot).2 hsj)
            have hget2 : rest.get? ip = some t := by
              rw [List.get?_cons_succ] at hget
              exact hget
            obtain ⟨hres, he⟩ := ih2 ip t hs2 hleast2 hget2
            exact ⟨by rw [hstep]; exact hres, he⟩
      | some e =>
        by_cases hce : e.access_count = ac
        · -- the head survives and is evicted
          have hs0 : lfuSurvives cache stale ((ac, cnt0, k) :: rest) 0 :=
            lfuSurvives_zero.2 ⟨⟨e, hlk, hce⟩, hknot⟩
          have hstep : lfuEvictLoop cache stale ((ac, cnt0, k) :: rest) =
              (dictDel cache k, stale.erase k, rest) := by
            simp only [lfuEvictLoop]
            rw [if_neg hst]
            simp only [hlk]
            rw [if_pos hce]
          constructor
          · intro hno
            exact absurd hs0 (hno 0)
          · intro i t hs hleast hget
            cases i with
            | succ ip => exact absurd hs0 (hleast 0 (Nat.succ_pos ip))
            | zero =>
              rw [List.get?_cons_zero] at hget
              have ht : (ac, cnt0, k) = t := Option.some_inj.1 hget
              cases ht
              exact ⟨by rw [hstep], ⟨e, hlk, hce⟩⟩
        · have hhead0 : ¬ lfuSurvives cache stale ((ac, cnt0, k) :: rest) 0 := by
            intro hs0
            obtain ⟨⟨e2, hlk2, hce2⟩, _⟩ := lfuSurvives_zero.1 hs0
            rw [hlk] at hlk2
            have hee : e = e2 := Option.some_inj.1 hlk2
            rw [← hee] at hce2
            exact hce hce2
          have hstep : lfuEvictLoop cache stale ((ac, cnt0, k) :: rest) =
              lfuEvictLoop cache stale rest := by
            simp only [lfuEvictLoop]
            rw [if_neg hst]
            simp only [hlk]
            rw [if_neg hce]
          obtain ⟨ih1, ih2⟩ := ih cache stale hnd
          constructor
          · intro hno
            rw [hstep]
            refine ih1 ?_
            intro i hsi
            exact hno (i + 1)
              ((lfuSurvives_succ_iff cache _ rest i hmem hknot).2 hsi)
          · intro i t hs hleast hget
            cases i with
            | zero => exact absurd hs hhead0
            | succ ip =>
              have hs2 := (lfuSurvives_succ_iff cache _ rest ip hmem hknot).1 hs
              have hleast2 : ∀ j, j < ip →
                  ¬ lfuSurvives cache stale rest j := by
                intro j hj hsj
                exact hleast (j + 1) (Nat.succ_lt_succ hj)
                  ((lfuSurvives_succ_iff cache _ rest j hmem hknot).2 hsj)
              have hget2 : rest.get? ip = some t := by
                rw [List.get?_cons_succ] at hget
                exact hget
              obtain ⟨hres, he⟩ := ih2 ip t hs2 hleast2 hget2
              exact ⟨by rw [hstep]; exact hres, he⟩

end CacheRunLemmas

theorem lookup_append_of_isSome {n : String} {V : Type}
    {l1 l2 : List (String × V)} (h : (List.lookup n l1).isSome) :
    List.lookup n (l1 ++ l2) = List.lookup n l1 := by
  induction l1 with
  | nil => simp at h
  | cons p rest ih =>
    obtain ⟨k, v⟩ := p
    rw [List.cons_append, List.lookup_cons, List.lookup_cons]
    cases hk : n == k with
    | true => rfl
    | false =>
      rw [List.lookup_cons, hk] at h
      exact ih h

theorem lookup_eq_none_of_not_mem_keys {n : String} {V : Type}
    {l : List (String × V)} (h : n ∉ l.map Prod.fst) :
    List.lookup n l = none := by
  induction l with
  | nil => rfl
  | cons p rest ih =>
    obtain ⟨k, v⟩ := p
    rw [List.map_cons, List.mem_cons] at h
    push_neg at h
    rw [List.lookup_cons]
    have hk : (n == k) = false := by
      rw [beq_eq_false_iff_ne]
      exact h.1
    rw [hk]
    exact ih h.2

theorem lookup_append_fresh {n : String} {V : Type} {l1 l2 : List (String × V)}
    {o : V} (h : n ∉ l1.map Prod.fst) :
    List.lookup n (l1 ++ (n, o) :: l2) = some o := by
  induction l1 with
  | nil => simp [List.lookup_cons]
  | cons p rest ih =>
    obtain ⟨k, v⟩ := p
    rw [List.map_cons, List.mem_cons] at h
    push_neg at h
    rw [List.cons_append, List.lookup_cons]
    have hk : (n == k) = false := by
      rw [beq_eq_false_iff_ne]
      exact h.1
    rw [hk]
    exact ih h.2

theorem pipelineLoop_cons_none {g : ValidationGraph} {ff : Bool}
    {ctx : ValidationContext} {name : String} {rest : List String}
    {results : List (String × ValidationOutcome)} {completed : List String}
    (hf : g.find name = none) :
    pipelineLoop g ff ctx (name :: rest) results completed = results := by
  simp only [pipelineLoop, hf]

theorem pipelineLoop_cons_skip {g : ValidationGraph} {ff : Bool}
    {ctx : ValidationContext} {name : String} {rest : List String}
    {results : List (String × ValidationOutcome)} {completed : List String}
    {v : ValidatorProtocol} (hf : g.find name = some v)
    (hcv : v.can_validate ctx = false) :
    pipelineLoop g ff ctx (name :: rest) results completed =
      pipelineLoop g ff ctx rest (results ++ [(name, skippedOutcome name)])
        (completed ++ [name]) := by
  simp only [pipelineLoop, hf]
  rw [if_pos hcv]

theorem pipelineLoop_cons_deps {g : ValidationGraph} {ff : Bool}
    {ctx : ValidationContext} {name : String} {rest : List String}
    {results : List (String × ValidationOutcome)} {completed : List String}
    {v : ValidatorProtocol} (hf : g.find name = some v)
    (hcv : v.can_validate ctx = true)
    (hce : g.can_execute name completed = false) :
    pipelineLoop g ff ctx (name :: rest) results completed =
      if ff = true then results ++ [(name, depsOutcome name)]
      else pipelineLoop g ff ctx rest (results ++ [(name, depsOutcome name)])
        completed := by
  simp only [pipelineLoop, hf]
  rw [if_neg (by simp [hcv]), if_pos hce]

theorem pipelineLoop_cons_ok {g : ValidationGraph} {ff : Bool}
    {ctx : ValidationContext} {name : String} {rest : List String}
    {results : List (String × ValidationOutcome)} {completed : List String}
    {v : ValidatorProtocol} {outcome : ValidationOutcome}
    (hf : g.find name = some v) (hcv : v.can_validate ctx = true)
    (hce : g.can_execute name completed = true)
    (hval : v.validate ctx = Except.ok outcome) :
    pipelineLoop g ff ctx (name :: rest) results completed =
      if (ff && outcome.is_blocking) = true then results ++ [(name, outcome)]
      else pipelineLoop g ff ctx rest (results ++ [(name, outcome)])
        (completed ++ [name]) := by
  simp only [pipelineLoop, hf]
  rw [if_neg (by simp [hcv]), if_neg (by simp [hce]), hval]

theorem pipelineLoop_cons_err {g : ValidationGraph} {ff : Bool}
    {ctx : ValidationContext} {name : String} {rest : List String}
    {results : List (String × ValidationOutcome)} {completed : List String}
    {v : ValidatorProtocol} {e : String}
    (hf : g.find name = some v) (hcv : v.can_validate ctx = true)
    (hce : g.can_execute name completed = true)
    (hval : v.validate ctx = Except.error e) :
    pipelineLoop g ff ctx (name :: rest) results completed =
      if ff = true then results ++ [(name, errOutcome name e)]
      else pipelineLoop g ff ctx rest (results ++ [(name, errOutcome name e)])
        completed := by
  simp only [pipelineLoop, hf]
  rw [if_neg (by simp [hcv]), if_neg (by simp [hce]), hval]

theorem pipelineLoop_lookup_frozen (g : ValidationGraph) (ff : Bool)
    (ctx : ValidationContext) :
    ∀ (order : List String) (results : List (String × ValidationOutcome))
      (completed : List String) (n : String),
      (List.lookup n results).isSome →
      List.lookup n (pipelineLoop g ff ctx order results completed) =
        List.lookup n results := by
  intro order
  induction order with
  | nil => intro results completed n _; rfl
  | cons name rest ih =>
    intro results completed n hsome
    have happ : ∀ (extra : List (String × ValidationOutcome)),
        List.lookup n (results ++ extra) = List.lookup n results :=
      fun extra => lookup_append_of_isSome hsome
    have happs : ∀ (extra : List (String × ValidationOutcome)),
        (List.lookup n (results ++ extra)).isSome := by
      intro extra
      rw [happ extra]
      exact hsome
    cases hf : g.find name with
    | none => rw [pipelineLoop_cons_none hf]
    | some v =>
      by_cases hcv : v.can_validate ctx = false
      · rw [pipelineLoop_cons_skip hf hcv, ih _ _ n (happs _), happ]
      · have hcv2 : v.can_validate ctx = true := by
          cases h : v.can_validate ctx
          · exact absurd h hcv
          · rfl
        by_cases hce : g.can_execute name completed = false
        · rw [pipelineLoop_cons_deps hf hcv2 hce]
          by_cases hff : ff = true
          · rw [if_pos hff, happ]
          · rw [if_neg hff, ih _ _ n (happs _), happ]
        · have hce2 : g.can_execute name completed = true := by
            cases h : g.can_execute name completed
            · exact absurd h hce
            · rfl
          cases hval : v.validate ctx with
          | ok outcome =>
            rw [pipelineLoop_cons_ok hf hcv2 hce2 hval]
            by_cases hblk : (ff && outcome.is_blocking) = true
            · rw [if_pos hblk, happ]
            · rw [if_neg hblk, ih _ _ n (happs _), happ]
          | error e =>
            rw [pipelineLoop_cons_err hf hcv2 hce2 hval]
            by_cases hff : ff = true
            · rw [if_pos hff, happ]
            · rw [if_neg hff, ih _ _ n (happs _), happ]

theorem pipelineLoop_raising_recorded_error (g : ValidationGraph)
    (ctx : ValidationContext) {vn : String} {v : ValidatorProtocol} {msg : String}
    (hvf : g.find vn = some v) (hvc : v.can_validate ctx = true)
    (hverr : v.validate ctx = Except.error msg) :
    ∀ (order : List String) (results : List (String × ValidationOutcome))
      (completed : List String),
      vn ∈ order → vn ∉ results.map Prod.fst →
      (∀ m ∈ order, (g.find m).isSome) →
      ∃ o, List.lookup vn (pipelineLoop g false ctx order results completed) =
          some o ∧ o.result = ValidationResult.error := by
  intro order
  induction order with
  | nil => intro _ _ hmem; simp at hmem
  | cons name rest ih =>
    intro results completed hmem hfresh hreg
    by_cases hname : name = vn
    · subst hname
      by_cases hce : g.can_execute name completed = false
      · rw [pipelineLoop_cons_deps hvf hvc hce, if_neg (by simp)]
        refine ⟨depsOutcome name, ?_, rfl⟩
        rw [pipelineLoop_lookup_frozen, lookup_append_fresh hfresh]
        rw [lookup_append_fresh hfresh]
        rfl
      · have hce2 : g.can_execute name completed = true := by
          cases h : g.can_execute name completed
          · exact absurd h hce
          · rfl
        rw [pipelineLoop_cons_err hvf hvc hce2 hverr, if_neg (by simp)]
        refine ⟨errOutcome name msg, ?_, rfl⟩
        rw [pipelineLoop_lookup_frozen, lookup_append_fresh hfresh]
        rw [lookup_append_fresh hfresh]
        rfl
    · have hmem2 : vn ∈ rest := by
        rcases List.mem_cons.1 hmem with h | h
        · exact absurd h.symm hname
        · exact h
      have hreg2 : ∀ m ∈ rest, (g.find m).isSome :=
        fun m hm => hreg m (List.mem_cons_of_mem _ hm)
      have hfresh2 : ∀ (o : ValidationOutcome),
          vn ∉ (results ++ [(name, o)]).map Prod.fst := by
        intro o hmemk
        rw [List.map_append, List.mem_append] at hmemk
        rcases hmemk with h | h
        · exact hfresh h
        · simp at h
          exact hname h.symm
      rcases Option.isSome_iff_exists.1 (hreg name (List.mem_cons_self _ _))
        with ⟨w, hw⟩
      by_cases hwcv : w.can_validate ctx = false
      · rw [pipelineLoop_cons_skip hw hwcv]
        exact ih _ _ hmem2 (hfresh2 _) hreg2
      · have hwcv2 : w.can_validate ctx = true := by
          cases h : w.can_validate ctx
          · exact absurd h hwcv
          · rfl
        by_cases hce : g.can_execute name completed = false
        · rw [pipelineLoop_cons_deps hw hwcv2 hce, if_neg (by simp)]
          exact ih _ _ hmem2 (hfresh2 _) hreg2
        · have hce2 : g.can_execute name completed = true := by
            cases h : g.can_execute name completed
            · exact absurd h hce
            · rfl
          cases hval : w.validate ctx with
          | ok outcome =>
            rw [pipelineLoop_cons_ok hw hwcv2 hce2 hval, if_neg (by simp)]
            exact ih _ _ hmem2 (hfresh2 _) hreg2
          | error e =>
            rw [pipelineLoop_cons_err hw hwcv2 hce2 hval, if_neg (by simp)]
            exact ih _ _ hmem2 (hfresh2 _) hreg2

theorem pipelineLoop_dependent_blocked (g : ValidationGraph)
    (ctx : ValidationContext) {vn : String} {v : ValidatorProtocol} {msg : String}
    (hvf : g.find vn = some v) (hvc : v.can_validate ctx = true)
    (hverr : v.validate ctx = Except.error msg)
    {wn : String} {w : ValidatorProtocol}
    (hwf2 : g.find wn = some w) (hwn : wn ≠ vn)
    (hwc : w.can_validate ctx = true) (hwd : vn ∈ w.dependencies) :
    ∀ (order : List String) (results : List (String × ValidationOutcome))
      (completed : List String),
      vn ∉ completed → wn ∈ order → wn ∉ results.map Prod.fst →
      (∀ m ∈ order, (g.find m).isSome) →
      List.lookup wn (pipelineLoop g false ctx order results completed) =
        some (depsOutcome wn) := by
  intro order
  induction order with
  | nil => intro _ _ _ hmem; simp at hmem
  | cons name rest ih =>
    intro results completed hvcomp hmem hfresh hreg
    by_cases hname : name = wn
    · subst hname
      have hce : g.can_execute name completed = false := by
        unfold ValidationGraph.can_execute
        have hdeps : g.dependenciesOf name = w.dependencies := by
          simp [ValidationGraph.dependenciesOf, hwf2]
        rw [hdeps]
        refine (List.all_eq_false).2 ⟨vn, hwd, ?_⟩
        intro hcontra
        exact hvcomp (by simpa using hcontra)
      rw [pipelineLoop_cons_deps hwf2 hwc hce, if_neg (by simp)]
      rw [pipelineLoop_lookup_frozen, lookup_append_fresh hfresh]
      rw [lookup_append_fresh hfresh]
      rfl
    · have hmem2 : wn ∈ rest := by
        rcases List.mem_cons.1 hmem with h | h
        · exact absurd h.symm hname
        · exact h
      have hreg2 : ∀ m ∈ rest, (g.find m).isSome :=
        fun m hm => hreg m (List.mem_cons_of_mem _ hm)
      have hfresh2 : ∀ (o : ValidationOutcome),
          wn ∉ (results ++ [(name, o)]).map Prod.fst := by
        intro o hmemk
        rw [List.map_append, List.mem_append] at hmemk
        rcases hmemk with h | h
        · exact hfresh h
        · simp at h
          exact hname h.symm
      have hvcomp2 : name ≠ vn → vn ∉ completed ++ [name] := by
        intro hne hmemk
        rw [List.mem_append] at hmemk
        rcases hmemk with h | h
        · exact hvcomp h
        · simp at h
          exact hne h.symm
      rcases Option.isSome_iff_exists.1 (hreg name (List.mem_cons_self _ _))
        with ⟨u, hu⟩
      by_cases hucv : u.can_validate ctx = false
      · have hne : name ≠ vn := by
          intro he
          subst he
          rw [hu] at hvf
          cases hvf
          rw [hucv] at hvc
          cases hvc
        rw [pipelineLoop_cons_skip hu hucv]
        exact ih _ _ (hvcomp2 hne) hmem2 (hfresh2 _) hreg2
      · have hucv2 : u.can_validate ctx = true := by
          cases h : u.can_validate ctx
          · exact absurd h hucv
          · rfl
        by_cases hce : g.can_execute name completed = false
        · rw [pipelineLoop_cons_deps hu hucv2 hce, if_neg (by simp)]
          exact ih _ _ hvcomp hmem2 (hfresh2 _) hreg2
        · have hce2 : g.can_execute name completed = true := by
            cases h : g.can_execute name completed
            · exact absurd h hce
            · rfl
          cases hval : u.validate ctx with
          | ok outcome =>
            have hne : name ≠ vn := by
              intro he
              subst he
              rw [hu] at hvf
              cases hvf
              rw [hval] at hverr
              cases hverr
            rw [pipelineLoop_cons_ok hu hucv2 hce2 hval, if_neg (by simp)]
            exact ih _ _ (hvcomp2 hne) hmem2 (hfresh2 _) hreg2
          | error e =>
            rw [pipelineLoop_cons_err hu hucv2 hce2 hval, if_neg (by simp)]
            exact ih _ _ hvcomp hmem2 (hfresh2 _) hreg2

/-- Claim C1 (counterexample). In the pipeline over extension, file_size
(depends on extension) and pdf_header (depends on extension and file_size),
run fail-fast on a 0-byte `.pdf` file, the claim predicts an Invalid/High
"too small" outcome for `file_size` and that `pdf_header` is absent from
the result map.  The code instead yields: `file_size` is Skipped (its
`can_validate` requires `file_size > 0`), skipped validators are added to
the completed set, and therefore `pdf_header` executes and is present with
an Invalid/High outcome. -/
theorem c1_counterexample :
    executeValidationPipeline c1Graph true c1Context =
      Except.ok [("extension", c1ExtOutcome),
                 ("file_size", skippedOutcome "file_size"),
                 ("pdf_header", c1HdrOutcome)] ∧
    (skippedOutcome "file_size").result ≠ ValidationResult.invalid ∧
    (executeValidationPipeline c1Graph true c1Context).toOption.bind
        (fun r => List.lookup "pdf_header" r) ≠ none := by
  refine ⟨rfl, by decide, by decide⟩

/-- Claim C1 (amended). In a pipeline whose validators are extension (no
dependencies), file_size (depends on extension) and pdf_header (depends on
extension and file_size), validating a 0-byte file whose path ends in
`.pdf` yields a Valid outcome for extension and a Skipped outcome for
file_size (its `can_validate` requires a positive size, so the
"too small" check never runs); because skipped validators are added to the
completed set, the pdf_header validator executes even when `fail_fast` is
true and appears in the result map with an Invalid outcome of High
severity, after which the fail-fast pipeline stops. -/
theorem c1_amended :
    executeValidationPipeline c1Graph true c1Context =
      Except.ok [("extension", c1ExtOutcome),
                 ("file_size", skippedOutcome "file_size"),
                 ("pdf_header", c1HdrOutcome)] ∧
    c1ExtOutcome.result = ValidationResult.valid ∧
    (skippedOutcome "file_size").result = ValidationResult.skipped ∧
    c1HdrOutcome.result = ValidationResult.invalid ∧
    c1HdrOutcome.severity = ValidationSeverity.high := by
  refine ⟨rfl, rfl, rfl, rfl, rfl⟩

/-- Claim C10 (amended). In every fail_fast=false pipeline run over an
execution order obtained from `get_execution_order`, a validator whose
`can_validate` is true and whose `validate` raises an exception is
recorded with an Error outcome and is never added to the completed set;
consequently every later validator that lists it as a dependency and is
itself applicable (`can_validate` true) does not execute and is recorded
as an Error outcome of High severity with message "Dependencies not
satisfied". -/
theorem c10_amended (g : ValidationGraph) (hwf : g.wf) (ctx : ValidationContext)
    {order : List String} (horder : g.get_execution_order = Except.ok order)
    {vn : String} {v : ValidatorProtocol} {msg : String}
    (hvf : g.find vn = some v) (hvc : v.can_validate ctx = true)
    (hverr : v.validate ctx = Except.error msg) (hvmem : vn ∈ order) :
    ∃ r, executeValidationPipeline g false ctx = Except.ok r ∧
      (∃ o, List.lookup vn r = some o ∧ o.result = ValidationResult.error) ∧
      ∀ wn w, g.find wn = some w → wn ∈ order → wn ≠ vn →
        w.can_validate ctx = true → vn ∈ w.dependencies →
        List.lookup wn r = some (depsOutcome wn) := by
  have hreg := get_execution_order_ok_registered hwf horder
  refine ⟨pipelineLoop g false ctx order [] [], ?_, ?_, ?_⟩
  · unfold executeValidationPipeline
    rw [horder]
  · exact pipelineLoop_raising_recorded_error g ctx hvf hvc hverr order [] []
      hvmem (by simp) hreg
  · intro wn w hwf2 hwmem hwne hwc hwd
    exact pipelineLoop_dependent_blocked g ctx hvf hvc hverr hwf2 hwne hwc hwd
      order [] [] (by simp) hwmem (by simp) hreg

/-- Witness for `c10_amended`: in the concrete graph where `B` raises and
the applicable `C` depends on `B`, the raising validator is recorded as an
Error and `C` is recorded as the "Dependencies not satisfied" error. -/
theorem c10_amended_witness :
    ∃ r, executeValidationPipeline c10AmendedGraph false c10Context =
        Except.ok r ∧
      (∃ o, List.lookup "B" r = some o ∧ o.result = ValidationResult.error) ∧
      ∀ wn w, c10AmendedGraph.find wn = some w → wn ∈ ["A", "B", "C"] →
        wn ≠ "B" → w.can_validate c10Context = true → "B" ∈ w.dependencies →
        List.lookup wn r = some (depsOutcome wn) :=
  c10_amended c10AmendedGraph (by unfold ValidationGraph.wf; decide) c10Context
    rfl rfl rfl rfl (by decide)

/-- Claim C3. For every pipeline over validators [extension, file_size,
pdf_header] — extension with no dependencies, file_size depending on
extension, pdf_header's dependencies not including file_size — executing
in that order on a context where extension completes without blocking,
file_size is applicable and its validate raises: the returned map
contains the caught Error outcome for file_size; when fail_fast is true,
pdf_header is absent from the result map (not executed); when fail_fast is
false and pdf_header is applicable, it still executes (its recorded
outcome is exactly what its own validate produces). -/
theorem c3_theorem (n1 n2 n3 : String) (ve vs vh : ValidatorProtocol)
    (ctx : ValidationContext) (msg : String)
    (hne12 : n1 ≠ n2) (hne13 : n1 ≠ n3) (hne23 : n2 ≠ n3)
    (hve : ve.name = n1) (hvs : vs.name = n2) (hvh : vh.name = n3)
    (hdeps_e : ve.dependencies = []) (hdeps_s : vs.dependencies = [n1])
    (hdeps_h : ∀ d ∈ vh.dependencies, d = n1)
    (hecomp : ve.can_validate ctx = false ∨
      (ve.can_validate ctx = true ∧
        ∃ o, ve.validate ctx = Except.ok o ∧ o.is_blocking = false))
    (hscv : vs.can_validate ctx = true)
    (hserr : vs.validate ctx = Except.error msg)
    (hhcv : vh.can_validate ctx = true)
    (horder : (ValidationGraph.mk [ve, vs, vh]).get_execution_order =
      Except.ok [n1, n2, n3]) :
    ∀ ff, ∃ r, executeValidationPipeline ⟨[ve, vs, vh]⟩ ff ctx = Except.ok r ∧
      List.lookup n2 r = some (errOutcome n2 msg) ∧
      (ff = true → List.lookup n3 r = none) ∧
      (ff = false → List.lookup n3 r =
        some (outcomeOfValidate n3 (vh.validate ctx))) := by
  intro ff
  set g : ValidationGraph := ⟨[ve, vs, vh]⟩ with hg
  have hf1 : g.find n1 = some ve := by
    unfold ValidationGraph.find
    exact List.find?_cons_of_pos _ (by simp [hve])
  have hf2 : g.find n2 = some vs := by
    unfold ValidationGraph.find
    rw [List.find?_cons_of_neg _ (by simp [hve, hne12])]
    exact List.find?_cons_of_pos _ (by simp [hvs])
  have hf3 : g.find n3 = some vh := by
    unfold ValidationGraph.find
    rw [List.find?_cons_of_neg _ (by simp [hve, hne13])]
    rw [List.find?_cons_of_neg _ (by simp [hvs, hne23])]
    exact List.find?_cons_of_pos _ (by simp [hvh])
  have hd1 : g.dependenciesOf n1 = [] := by
    simp [ValidationGraph.dependenciesOf, hf1, hdeps_e]
  have hd2 : g.dependenciesOf n2 = [n1] := by
    simp [ValidationGraph.dependenciesOf, hf2, hdeps_s]
  have hd3 : g.dependenciesOf n3 = vh.dependencies := by
    simp [ValidationGraph.dependenciesOf, hf3]
  have hce1 : g.can_execute n1 [] = true := by
    unfold ValidationGraph.can_execute
    rw [hd1]
    rfl
  have hce2 : g.can_execute n2 [n1] = true := by
    unfold ValidationGraph.can_execute
    rw [hd2]
    simp
  have hce3 : g.can_execute n3 [n1] = true := by
    unfold ValidationGraph.can_execute
    rw [hd3, List.all_eq_true]
    intro d hd
    rw [hdeps_h d hd]
    simp
  have hstep1 : ∃ o1 : ValidationOutcome,
      pipelineLoop g ff ctx [n1, n2, n3] [] [] =
        pipelineLoop g ff ctx [n2, n3] [(n1, o1)] [n1] := by
    rcases hecomp with hecv | ⟨hcv1, o, hok, hnb⟩
    · exact ⟨skippedOutcome n1, by rw [pipelineLoop_cons_skip hf1 hecv]; rfl⟩
    · refine ⟨o, ?_⟩
      rw [pipelineLoop_cons_ok hf1 hcv1 hce1 hok]
      rw [hnb, Bool.and_false]
      rw [if_neg (by simp)]
      rfl
  obtain ⟨o1, hstep1⟩ := hstep1
  have hrun : executeValidationPipeline g ff ctx =
      Except.ok (pipelineLoop g ff ctx [n1, n2, n3] [] []) := by
    unfold executeValidationPipeline
    rw [horder]
  rw [hstep1] at hrun
  have hstep2 := @pipelineLoop_cons_err g ff ctx n2 [n3] [(n1, o1)] [n1]
    vs msg hf2 hscv hce2 hserr
  cases hff : ff with
  | true =>
    rw [hff] at hstep2 hrun
    rw [hstep2, if_pos rfl] at hrun
    refine ⟨_, hrun, ?_, ?_, ?_⟩
    · have : n2 ∉ ([(n1, o1)].map Prod.fst) := by simp [hne12.symm]
      exact lookup_append_fresh this
    · intro _
      refine lookup_eq_none_of_not_mem_keys ?_
      simp [hne13.symm, hne23.symm]
    · intro hcontra
      cases hcontra
  | false =>
    rw [hff] at hstep2 hrun
    rw [hstep2, if_neg (by simp)] at hrun
    have hfresh2 : n2 ∉ ([(n1, o1)].map Prod.fst) := by simp [hne12.symm]
    have hfresh3 : n3 ∉ (([(n1, o1)] ++ [(n2, errOutcome n2 msg)]).map Prod.fst) := by
      simp [hne13.symm, hne23.symm]
    cases hval : vh.validate ctx with
    | ok o3 =>
      have hstep3 := @pipelineLoop_cons_ok g false ctx n3 []
        ([(n1, o1)] ++ [(n2, errOutcome n2 msg)]) [n1] vh o3 hf3 hhcv hce3 hval
      rw [if_neg (by simp)] at hstep3
      rw [hstep3] at hrun
      refine ⟨_, hrun, ?_, ?_, ?_⟩
      · show List.lookup n2
          (pipelineLoop g false ctx [] (([(n1, o1)] ++ [(n2, errOutcome n2 msg)])
            ++ [(n3, o3)]) ([n1] ++ [n3])) = some (errOutcome n2 msg)
        have hin : (List.lookup n2 ([(n1, o1)] ++ [(n2, errOutcome n2 msg)])).isSome := by
          rw [lookup_append_fresh hfresh2]
          rfl
        rw [pipelineLoop_lookup_frozen]
        · rw [lookup_append_of_isSome hin, lookup_append_fresh hfresh2]
        · rw [lookup_append_of_isSome hin]
          exact hin
      · intro hcontra
        cases hcontra
      · intro _
        show List.lookup n3
          (pipelineLoop g false ctx [] (([(n1, o1)] ++ [(n2, errOutcome n2 msg)])
            ++ [(n3, o3)]) ([n1] ++ [n3])) = some (outcomeOfValidate n3 (Except.ok o3))
        rw [pipelineLoop_lookup_frozen, lookup_append_fresh hfresh3]
        · rfl
        · rw [lookup_append_fresh hfresh3]
          rfl
    | error e3 =>
      have hstep3 := @pipelineLoop_cons_err g false ctx n3 []
        ([(n1, o1)] ++ [(n2, errOutcome n2 msg)]) [n1] vh e3 hf3 hhcv hce3 hval
      rw [if_neg (by simp)] at hstep3
      rw [hstep3] at hrun
      refine ⟨_, hrun, ?_, ?_, ?_⟩
      · show List.lookup n2
          (pipelineLoop g false ctx [] (([(n1, o1)] ++ [(n2, errOutcome n2 msg)])
            ++ [(n3, errOutcome n3 e3)]) [n1]) = some (errOutcome n2 msg)
        have hin : (List.lookup n2 ([(n1, o1)] ++ [(n2, errOutcome n2 msg)])).isSome := by
          rw [lookup_append_fresh hfresh2]
          rfl
        rw [pipelineLoop_lookup_frozen]
        · rw [lookup_append_of_isSome hin, lookup_append_fresh hfresh2]
        · rw [lookup_append_of_isSome hin]
          exact hin
      · intro hcontra
        cases hcontra
      · intro _
        show List.lookup n3
          (pipelineLoop g false ctx [] (([(n1, o1)] ++ [(n2, errOutcome n2 msg)])
            ++ [(n3, errOutcome n3 e3)]) [n1]) =
          some (outcomeOfValidate n3 (Except.error e3))
        rw [pipelineLoop_lookup_frozen, lookup_append_fresh hfresh3]
        · rfl
        · rw [lookup_append_fresh hfresh3]
          rfl

/-- Witness for `c3_theorem`: the concrete pipeline where `file_size`
raises, run without fail-fast, records the caught error for `file_size`
and still executes `pdf_header`. -/
theorem c3_theorem_witness :
    ∃ r, executeValidationPipeline c3Graph false c10Context = Except.ok r ∧
      List.lookup "file_size" r = some (errOutcome "file_size" "boom") ∧
      (false = true → List.lookup "pdf_header" r = none) ∧
      (false = false → List.lookup "pdf_header" r =
        some (outcomeOfValidate "pdf_header"
          (c3HeaderValidator.validate c10Context))) :=
  c3_theorem "extension" "file_size" "pdf_header" c3ExtValidator
    c3SizeValidator c3HeaderValidator c10Context "boom"
    (by decide) (by decide) (by decide) rfl rfl rfl rfl rfl
    (by
      intro d hd
      rw [show c3HeaderValidator.dependencies = ["extension"] from rfl] at hd
      simpa using hd)
    (Or.inr ⟨rfl, ⟨_, rfl, rfl⟩⟩) rfl rfl rfl rfl false

/-- Claim C10 (counterexample). Validator `A` raises; validator `B`
depends on `A` but its `can_validate` is false for the context.  The claim
predicts `B` is recorded as an Error outcome with message "Dependencies
not satisfied"; the code checks applicability first, so `B` is recorded as
Skipped (and even added to the completed set). -/
theorem c10_counterexample :
    executeValidationPipeline c10Graph false c10Context =
      Except.ok [("A", errOutcome "A" "boom"), ("B", skippedOutcome "B")] ∧
    (skippedOutcome "B").result ≠ ValidationResult.error ∧
    (skippedOutcome "B").message ≠ "Dependencies not satisfied" := by
  refine ⟨rfl, by decide, by decide⟩

/-- Claim C6 (counterexample). On the LFU policy the auxiliary structure can
exceed the key-to-entry map: after one `put` and one `get` of the same key the
heap holds two tuples for the single live entry (`put` pushes a count-0 tuple,
`get` pushes a count-1 tuple without removing the old one), so the heap size 2
is strictly greater than the map size 1 and the claimed invariant fails. -/
theorem c6_counterexample : ¬ auxSize c6LfuState ≤ c6LfuState.cache.length := by
  decide

/-- Claim C6 (amended). For every cache whose policy is not LFU, after every
sequence of get/put/clear operations from a fresh cache the size of the
policy's auxiliary ordering structure is at most the size of the key-to-entry
map (for LRU and FIFO it is equal to it; the pure-TTL policy keeps none). -/
theorem c6_amended {K V : Type} [BEq K] [LawfulBEq K] (max_size : Nat)
    (p : CachePolicy) (ttl : Option Int) (ops : List (CacheOp K V))
    (hp : p ≠ CachePolicy.lfu) :
    auxSize ((SmartCache.init K V max_size p ttl).run ops) ≤
      ((SmartCache.init K V max_size p ttl).run ops).cache.length := by
  have hpol : ((SmartCache.init K V max_size p ttl).run ops).policy = p :=
    policy_run _ ops
  cases p with
  | lru =>
    have hs : lruSync ((SmartCache.init K V max_size CachePolicy.lru ttl).run ops) :=
      lruSync_run _ ops rfl ⟨List.nodup_nil, List.nodup_nil, fun _ => Iff.rfl⟩
    exact le_of_eq (auxSize_lru hpol hs)
  | lfu => exact absurd rfl hp
  | fifo =>
    have hs : fifoSync ((SmartCache.init K V max_size CachePolicy.fifo ttl).run ops) :=
      fifoSync_run _ ops rfl ⟨List.nodup_nil, List.nodup_nil, fun _ => Iff.rfl⟩
    exact le_of_eq (auxSize_fifo hpol hs)
  | ttl =>
    have h0 : auxSize ((SmartCache.init K V max_size CachePolicy.ttl ttl).run ops) = 0 := by
      unfold auxSize
      simp only [hpol]
    rw [h0]
    exact Nat.zero_le _

/-- Claim C6 (amended, witness): a concrete LRU run exercising eviction,
re-access and overwrite. -/
theorem c6_amended_witness :
    auxSize ((SmartCache.init String Nat 2 CachePolicy.lru none).run
        [CacheOp.put "a" 1 0, CacheOp.get "a" 0, CacheOp.put "b" 2 0,
         CacheOp.put "c" 3 0]) ≤
      ((SmartCache.init String Nat 2 CachePolicy.lru none).run
        [CacheOp.put "a" 1 0, CacheOp.get "a" 0, CacheOp.put "b" 2 0,
         CacheOp.put "c" 3 0]).cache.length :=
  c6_amended 2 CachePolicy.lru none
    [CacheOp.put "a" 1 0, CacheOp.get "a" 0, CacheOp.put "b" 2 0,
     CacheOp.put "c" 3 0] (by decide)

/-- Claim C5 (counterexample). On a capacity-2 LFU cache, after put j, put k,
get k, get j both entries have access count 1 and j was inserted first, yet the
next put evicts k, not j: the eviction loop skips the two stale-flagged put
tuples (consuming the flags of k then j), and the first surviving
count-matching tuple is the one pushed by get k. Ties are thus broken by the
earliest *surviving heap tuple* (the earliest access at the current count),
not by earliest insertion. -/
theorem c5_counterexample :
    c5State4.cache.map Prod.fst = ["j", "k"] ∧
    Option.map CacheEntry.access_count (c5State4.cache.lookup "j") = some 1 ∧
    Option.map CacheEntry.access_count (c5State4.cache.lookup "k") = some 1 ∧
    c5State5.cache.lookup "k" = none ∧
    (c5State5.cache.lookup "j").isSome = true := by
  decide

/-- Claim C5 (amended). For every LFU-policy cache whose heap is sorted in
heap order and whose stale-key set is duplicate-free (Python's set invariant),
`_evict_one` deletes exactly the key of the earliest surviving heap tuple —
a tuple is skipped iff it is its key's flag-consuming tuple (the key's first
tuple while stale-flagged), its key is no longer live, or its recorded count
differs from the entry's current count — and deletes nothing when no tuple
survives. The victim's entry is live with its current count equal to the
popped tuple's count (so a stale tuple recording a prior count never evicts a
fresher state), and the victim's count is minimal among all surviving tuples:
ties between entries of equal current count go to the earliest surviving
count-matching tuple, not to the earliest-inserted key. -/
theorem c5_amended {K V : Type} [BEq K] [LawfulBEq K] (s : SmartCache K V)
    (hp : s.policy = CachePolicy.lfu)
    (hnd : s.lfu_stale_keys.Nodup)
    (hsort : s.lfu_heap.Pairwise (fun a b => heapLe a b = true)) :
    ((∀ i, ¬ lfuSurvives s.cache s.lfu_stale_keys s.lfu_heap i) →
      s.evictOne.cache = s.cache) ∧
    (∀ i t, lfuSurvives s.cache s.lfu_stale_keys s.lfu_heap i →
      (∀ j, j < i → ¬ lfuSurvives s.cache s.lfu_stale_keys s.lfu_heap j) →
      s.lfu_heap.get? i = some t →
      ∃ e, s.cache.lookup t.2.2 = some e ∧ e.access_count = t.1 ∧
        s.evictOne.cache = dictDel s.cache t.2.2 ∧
        ∀ j u, lfuSurvives s.cache s.lfu_stale_keys s.lfu_heap j →
          s.lfu_heap.get? j = some u → t.1 ≤ u.1) := by
  obtain ⟨hs1, hs2⟩ := lfuEvictLoop_spec s.lfu_heap s.cache s.lfu_stale_keys hnd
  constructor
  · intro hno
    by_cases hemp : s.cache.isEmpty = true
    · have hev : s.evictOne = s := by
        unfold SmartCache.evictOne
        rw [if_pos hemp]
      rw [hev]
    · have hev : s.evictOne.cache =
          (lfuEvictLoop s.cache s.lfu_stale_keys s.lfu_heap).1 := by
        unfold SmartCache.evictOne
        rw [if_neg hemp]
        simp only [hp]
      rw [hev]
      exact hs1 hno
  · intro i t hs hleast hget
    obtain ⟨hres, e, hlk, hce⟩ := hs2 i t hs hleast hget
    have hemp : ¬ s.cache.isEmpty = true := by
      cases hc : s.cache with
      | nil =>
        rw [hc] at hlk
        simp [List.lookup] at hlk
      | cons p l => simp
    have hev : s.evictOne.cache =
        (lfuEvictLoop s.cache s.lfu_stale_keys s.lfu_heap).1 := by
      unfold SmartCache.evictOne
      rw [if_neg hemp]
      simp only [hp]
    refine ⟨e, hlk, hce, by rw [hev]; exact hres, ?_⟩
    intro j u hsj hgetj
    have hij : i ≤ j := by
      by_contra hlt2
      push_neg at hlt2
      exact hleast j hlt2 hsj
    rcases eq_or_lt_of_le hij with heq | hlt2
    · rw [← heq] at hgetj
      rw [hget] at hgetj
      exact Nat.le_of_eq (congrArg Prod.fst (Option.some_inj.1 hgetj))
    · obtain ⟨hi, hti⟩ := List.get?_eq_some.1 hget
      obtain ⟨hj, huj⟩ := List.get?_eq_some.1 hgetj
      have hR := (List.pairwise_iff_get.1 hsort) ⟨i, hi⟩ ⟨j, hj⟩ hlt2
      have hfst := heapLe_fst_le hR
      rw [← hti, ← huj]
      exact hfst

/-- Claim C5 (amended, witness): the reachable put k; get k state, whose only
live key is stale-flagged — its put tuple consumes the flag and its
count-matching get tuple survives and is evicted. -/
theorem c5_amended_witness :
    ((∀ i, ¬ lfuSurvives c5WitnessState.cache c5WitnessState.lfu_stale_keys
        c5WitnessState.lfu_heap i) →
      c5WitnessState.evictOne.cache = c5WitnessState.cache) ∧
    (∀ i t, lfuSurvives c5WitnessState.cache c5WitnessState.lfu_stale_keys
        c5WitnessState.lfu_heap i →
      (∀ j, j < i → ¬ lfuSurvives c5WitnessState.cache
        c5WitnessState.lfu_stale_keys c5WitnessState.lfu_heap j) →
      c5WitnessState.lfu_heap.get? i = some t →
      ∃ e, c5WitnessState.cache.lookup t.2.2 = some e ∧
        e.access_count = t.1 ∧
        c5WitnessState.evictOne.cache = dictDel c5WitnessState.cache t.2.2 ∧
        ∀ j u, lfuSurvives c5WitnessState.cache c5WitnessState.lfu_stale_keys
            c5WitnessState.lfu_heap j →
          c5WitnessState.lfu_heap.get? j = some u → t.1 ≤ u.1) :=
  c5_amended c5WitnessState rfl (by decide) (by decide)

/-- Claim C4. For every DynamicRegistry whose cache holds no entry for the
probed cache keys: get with a never-registered name returns None and leaves
the registry unchanged; when the registered factory raises, the exception
propagates to the caller, the state (and in particular the cache) is
unchanged, and a subsequent identical call raises again (the factory is
re-invoked, nothing was cached). -/
theorem c4_theorem {A T : Type} [BEq A] [LawfulBEq A] (r : DynamicRegistry A T)
    (key1 key2 : String) (a : A) (e : String)
    (f : A → Except String (Option T)) (now : Int)
    (hc1 : r.cache.cache.lookup (key1, a) = none)
    (hc2 : r.cache.cache.lookup (key2, a) = none)
    (h1 : r.registry.lookup key1 = none)
    (h2 : r.registry.lookup key2 = some f)
    (hf : f a = Except.error e) :
    r.get key1 a now = (Except.ok none, r) ∧
    r.get key2 a now = (Except.error e, r) ∧
    ((r.get key2 a now).2).get key2 a now = (Except.error e, r) := by
  have hg1 : r.cache.get (key1, a) now = (none, r.cache) :=
    get_none r.cache (key1, a) now hc1
  have hg2 : r.cache.get (key2, a) now = (none, r.cache) :=
    get_none r.cache (key2, a) now hc2
  have hmain : r.get key2 a now = (Except.error e, r) := by
    simp only [DynamicRegistry.get, hg2, h2, hf]
  refine ⟨?_, hmain, ?_⟩
  · simp only [DynamicRegistry.get, hg1, h1]
  · rw [hmain]
    exact hmain

/-- Claim C4 (witness): a concrete registry with an always-raising factory
under name f and nothing under name g. -/
theorem c4_theorem_witness :
    c4Registry.get "g" 5 0 = (Except.ok none, c4Registry) ∧
    c4Registry.get "f" 5 0 = (Except.error "boom", c4Registry) ∧
    ((c4Registry.get "f" 5 0).2).get "f" 5 0 =
      (Except.error "boom", c4Registry) :=
  c4_theorem c4Registry "g" "f" 5 "boom" c4BoomFactory 0 rfl rfl rfl rfl rfl

/-- Claim C8. For every pure wrapped function and every history of wrapper
calls and cache clears starting from a fresh memo cache (any size, policy and
TTL), the next wrapper call at x returns exactly f x — the same value as
computing f once — including immediately after clear_cache(). -/
theorem c8_theorem {A T : Type} [BEq A] [LawfulBEq A] (f : A → Option T)
    (x : A) (now : Int) (max_size : Nat) (policy : CachePolicy)
    (ttl : Option Int) (ops : List (MemoOp A)) :
    (memoizeCall f
      (memoRun f (SmartCache.init A (Option T) max_size policy ttl) ops)
      x now).1 = f x :=
  memoizeCall_result
    (memoGood_memoRun f _ ops (fun _ hp => absurd hp (List.not_mem_nil _)))
    x now

/-- Claim C8 (witness): a concrete history with a repeat call, an eviction
and a clear. -/
theorem c8_theorem_witness :
    (memoizeCall (fun n : Nat => some (n + 1))
      (memoRun (fun n : Nat => some (n + 1))
        (SmartCache.init Nat (Option Nat) 2 CachePolicy.lru none)
        [MemoOp.call 3 0, MemoOp.call 3 1, MemoOp.call 4 2, MemoOp.call 5 3,
         MemoOp.clear, MemoOp.call 3 4])
      3 5).1 = some 4 :=
  c8_theorem (fun n : Nat => some (n + 1)) 3 5 2 CachePolicy.lru none
    [MemoOp.call 3 0, MemoOp.call 3 1, MemoOp.call 4 2, MemoOp.call 5 3,
     MemoOp.clear, MemoOp.call 3 4]

/-- Claim C9. A stored None is indistinguishable from a miss at every public
lookup: SmartCache.get joins to None both for a missing key and for an entry
whose stored value is None; consequently a registry factory whose cached
result is None is re-invoked (its outcome — value or exception — reaches the
caller), a memoized function whose cached result is None is re-run, and a
None result of a fresh memoized call is still written to the cache. -/
theorem c9_theorem {K A T : Type} [BEq K] [LawfulBEq K] [BEq A] [LawfulBEq A]
    (s1 s2 : SmartCache K (Option T)) (k : K) (e2 : CacheEntry (Option T))
    (r : DynamicRegistry A T) (key : String) (a : A)
    (f : A → Except String (Option T)) (er : CacheEntry (Option T))
    (g : A → Option T) (m1 m2 : SmartCache A (Option T))
    (em : CacheEntry (Option T)) (b : A) (now : Int)
    (h1 : s1.cache.lookup k = none)
    (h2 : s2.cache.lookup k = some e2) (h2v : e2.value = none)
    (hr : r.registry.lookup key = some f)
    (hre : r.cache.cache.lookup (key, a) = some er) (hrv : er.value = none)
    (hm : m1.cache.lookup b = some em) (hmv : em.value = none)
    (hm2 : m2.cache.lookup b = none) (hgb : g b = none) :
    Option.join ((s1.get k now).1) = none ∧
    Option.join ((s2.get k now).1) = none ∧
    (r.get key a now).1 = f a ∧
    (memoizeCall g m1 b now).1 = g b ∧
    ((memoizeCall g m2 b now).2).cache.lookup b = some ⟨none, now, 0, now⟩ := by
  refine ⟨?_, ?_, ?_, ?_, ?_⟩
  · rw [get_none s1 k now h1]
    rfl
  · rcases get_result s2 k now with hg | ⟨e, hlk, hg⟩
    · rw [hg]
      rfl
    · rw [h2] at hlk
      have hee : e2 = e := Option.some_inj.1 hlk
      rw [hg, ← hee, h2v]
      rfl
  · have hg : (r.cache.get (key, a) now).1 = none ∨
        (r.cache.get (key, a) now).1 = some none := by
      rcases get_result r.cache (key, a) now with hg | ⟨e, hlk, hg⟩
      · exact Or.inl hg
      · rw [hre] at hlk
        have hee : er = e := Option.some_inj.1 hlk
        rw [hg, ← hee, hrv]
        exact Or.inr rfl
    cases hfa : f a with
    | ok result =>
      rcases hg with hg | hg <;> simp only [DynamicRegistry.get, hg, hr, hfa]
    | error msg =>
      rcases hg with hg | hg <;> simp only [DynamicRegistry.get, hg, hr, hfa]
  · have hg : (m1.get b now).1 = none ∨ (m1.get b now).1 = some none := by
      rcases get_result m1 b now with hg | ⟨e, hlk, hg⟩
      · exact Or.inl hg
      · rw [hm] at hlk
        have hee : em = e := Option.some_inj.1 hlk
        rw [hg, ← hee, hmv]
        exact Or.inr rfl
    rcases hg with hg | hg <;> simp only [memoizeCall, hg]
  · have hg0 : m2.get b now = (none, m2) := get_none m2 b now hm2
    have hstep : memoizeCall g m2 b now = (g b, m2.put b (g b) now) := by
      simp only [memoizeCall, hg0]
    rw [hstep]
    show (m2.put b (g b) now).cache.lookup b = some ⟨none, now, 0, now⟩
    rw [put_cache_eq, lookup_dictSet_self, hgb]

/-- Claim C9 (witness): concrete caches storing None, a raising factory with
a cached None, and a constant-None memoized function. -/
theorem c9_theorem_witness :
    Option.join (((SmartCache.init String (Option Nat) 4 CachePolicy.lru
      none).get "k" 0).1) = none ∧
    Option.join ((((SmartCache.init String (Option Nat) 4 CachePolicy.lru
      none).put "k" none 0).get "k" 0).1) = none ∧
    (c9Registry.get "n" 5 0).1 = c9RedoFactory 5 ∧
    (memoizeCall (fun _ : Nat => none)
      ((SmartCache.init Nat (Option Nat) 4 CachePolicy.lru none).put 7 none 0)
      7 0).1 = (fun _ : Nat => none) 7 ∧
    ((memoizeCall (fun _ : Nat => none)
      (SmartCache.init Nat (Option Nat) 4 CachePolicy.lru none)
      7 0).2).cache.lookup 7 = some ⟨none, 0, 0, 0⟩ :=
  c9_theorem
    (SmartCache.init String (Option Nat) 4 CachePolicy.lru none)
    ((SmartCache.init String (Option Nat) 4 CachePolicy.lru none).put
      "k" none 0)
    "k" ⟨none, 0, 0, 0⟩ c9Registry "n" 5 c9RedoFactory ⟨none, 0, 0, 0⟩
    (fun _ : Nat => none)
    ((SmartCache.init Nat (Option Nat) 4 CachePolicy.lru none).put 7 none 0)
    (SmartCache.init Nat (Option Nat) 4 CachePolicy.lru none)
    ⟨none, 0, 0, 0⟩ 7 0
    (by decide) (by decide) (by decide) rfl (by decide) (by decide)
    (by decide) (by decide) (by decide) rfl

theorem pairLe_total : ∀ a b : String × String, pairLe a b ∨ pairLe b a := by
  intro a b
  unfold pairLe
  rcases lt_trichotomy a.1 b.1 with h | h | h
  · exact Or.inl (Or.inl h)
  · rcases le_total a.2 b.2 with h2 | h2
    · exact Or.inl (Or.inr ⟨h, h2⟩)
    · exact Or.inr (Or.inr ⟨h.symm, h2⟩)
  · exact Or.inr (Or.inl h)

instance : IsTotal (String × String) pairLe := ⟨pairLe_total⟩

theorem pairLe_trans : ∀ a b c : String × String,
    pairLe a b → pairLe b c → pairLe a c := by
  intro a b c hab hbc
  unfold pairLe at hab hbc ⊢
  rcases hab with h1 | ⟨h1, h1b⟩
  · rcases hbc with h2 | ⟨h2, h2b⟩
    · exact Or.inl (h1.trans h2)
    · exact Or.inl (by rw [← h2]; exact h1)
  · rcases hbc with h2 | ⟨h2, h2b⟩
    · exact Or.inl (by rw [h1]; exact h2)
    · exact Or.inr ⟨h1.trans h2, h1b.trans h2b⟩

instance : IsTrans (String × String) pairLe := ⟨pairLe_trans⟩

theorem pairLe_antisymm : ∀ a b : String × String,
    pairLe a b → pairLe b a → a = b := by
  intro a b hab hba
  unfold pairLe at hab hba
  rcases hab with h1 | ⟨h1, h1b⟩
  · rcases hba with h2 | ⟨h2, h2b⟩
    · exact absurd h2 (lt_asymm h1)
    · rw [h2] at h1
      exact absurd h1 (lt_irrefl _)
  · rcases hba with h2 | ⟨h2, h2b⟩
    · rw [h1] at h2
      exact absurd h2 (lt_irrefl _)
    · have hsnd : a.2 = b.2 := le_antisymm h1b h2b
      exact Prod.ext h1 hsnd

instance : IsAntisymm (String × String) pairLe := ⟨pairLe_antisymm⟩

/-- Claim C7. The strategy-cache key is a pure, deterministic function of the
context's observable fields: any two contexts whose `__dict__` holds the same
attribute-value pairs (in any insertion order) yield the same key, for every
digest function — the key never depends on object identity, which does not
enter the computation at all. -/
theorem c7_theorem (digest : String → String)
    (items1 items2 : List (String × String))
    (hperm : List.Perm items1 items2) :
    create_context_key digest items1 = create_context_key digest items2 := by
  unfold create_context_key
  have hsorted : List.insertionSort pairLe items1 =
      List.insertionSort pairLe items2 :=
    List.eq_of_perm_of_sorted
      ((List.perm_insertionSort pairLe items1).trans
        (hperm.trans (List.perm_insertionSort pairLe items2).symm))
      (List.sorted_insertionSort pairLe items1)
      (List.sorted_insertionSort pairLe items2)
  rw [hsorted]

/-- Claim C7 (witness): two insertion orders of the same two fields. -/
theorem c7_theorem_witness :
    create_context_key (fun s => s) [("b", "2"), ("a", "1")] =
      create_context_key (fun s => s) [("a", "1"), ("b", "2")] :=
  c7_theorem (fun s => s) [("b", "2"), ("a", "1")] [("a", "1"), ("b", "2")]
    (by decide)

end PL
